import Mathlib

/-!
Verification development for the AetherShare repository
(serverless file sharing: inline-locator encoding, password-based
encryption, chunked peer-to-peer transfer, acoustic FSK modem).

Byte sequences are modelled as `List Nat` with every element `< 256`;
JavaScript strings are modelled as `List Char` (Unicode scalar values).
Browser platform primitives that the repository calls but does not
implement (AES-GCM, PBKDF2, gzip) are modelled as structures whose
fields carry the idealized guarantees attributed to them, and each
structure is instantiated by a concrete executable model so that the
theorems can be evaluated on concrete inputs.
-/

/-- A byte list: every element is a value fitting in one octet. -/
def ByteList (l : List Nat) : Prop := ∀ b ∈ l, b < 256

instance (l : List Nat) : Decidable (ByteList l) := by
  unfold ByteList; infer_instance

/-! ### Base64 (the browser's `btoa` / `atob`, as used by
`Encoder.bufferToBase64` and `Encoder.base64ToBuffer` in script.js). -/

/-- The standard base64 alphabet. -/
def b64Alphabet : List Char :=
  ("ABCDEFGHIJKLMNOPQRSTUVWXYZabcdefghijklmnopqrstuvwxyz0123456789+/").toList

/-- The base64 digit for a sextet value. -/
def encB64 (i : Nat) : Char := b64Alphabet.getD i ('?')

/-- The sextet value of a base64 digit, `none` for characters outside
the alphabet (where `atob` throws). -/
def decB64 (c : Char) : Option Nat := b64Alphabet.findIdx? (fun d => d = c)

/-- `Encoder.bufferToBase64`: `btoa(String.fromCharCode(...bytes))`,
grouping bytes three at a time into four base64 digits with `=` padding. -/
def bufferToBase64 : List Nat → List Char
  | a :: b :: c :: rest =>
      encB64 (a / 4) :: encB64 (a % 4 * 16 + b / 16) ::
      encB64 (b % 16 * 4 + c / 64) :: encB64 (c % 64) :: bufferToBase64 rest
  | [a, b] => [encB64 (a / 4), encB64 (a % 4 * 16 + b / 16), encB64 (b % 16 * 4), '=']
  | [a] => [encB64 (a / 4), encB64 (a % 4 * 16), '=', '=']
  | [] => []

/-- `Encoder.base64ToBuffer`: `Uint8Array.from(atob(base64), c => c.charCodeAt(0))`,
`none` where `atob` throws on malformed input. -/
def base64ToBuffer : List Char → Option (List Nat)
  | [] => some []
  | c1 :: c2 :: c3 :: c4 :: rest => do
      let s1 ← decB64 c1
      let s2 ← decB64 c2
      if c3 = '=' then
        if c4 = '=' ∧ rest = [] then pure [s1 * 4 + s2 / 16] else none
      else do
        let s3 ← decB64 c3
        if c4 = '=' then
          if rest = [] then pure [s1 * 4 + s2 / 16, s2 % 16 * 16 + s3 / 4] else none
        else do
          let s4 ← decB64 c4
          let bs ← base64ToBuffer rest
          pure ((s1 * 4 + s2 / 16) :: (s2 % 16 * 16 + s3 / 4) :: (s3 % 4 * 64 + s4) :: bs)
  | _ => none

theorem decB64_encB64 : ∀ i < 64, decB64 (encB64 i) = some i := by decide

theorem encB64_ne_pad : ∀ i < 64, encB64 i ≠ '=' := by decide

theorem b64_roundtrip : ∀ l : List Nat, ByteList l →
    base64ToBuffer (bufferToBase64 l) = some l := by
  intro l hl
  induction l using bufferToBase64.induct with
  | case1 a b c rest ih =>
      have ha : a < 256 := hl a (by simp)
      have hb : b < 256 := hl b (by simp)
      have hc : c < 256 := hl c (by simp)
      have hrest : ByteList rest := fun x hx => hl x (by simp [hx])
      have h1 := decB64_encB64 (a / 4) (by omega)
      have h2 := decB64_encB64 (a % 4 * 16 + b / 16) (by omega)
      have h3 := decB64_encB64 (b % 16 * 4 + c / 64) (by omega)
      have h4 := decB64_encB64 (c % 64) (by omega)
      have hne3 := encB64_ne_pad (b % 16 * 4 + c / 64) (by omega)
      have hne4 := encB64_ne_pad (c % 64) (by omega)
      rw [bufferToBase64, base64ToBuffer, h1, h2]
      simp only [Option.bind_eq_bind, Option.some_bind, if_neg hne3]
      rw [h3]
      simp only [Option.bind_eq_bind, Option.some_bind, if_neg hne4]
      rw [h4]
      simp only [Option.bind_eq_bind, Option.some_bind, ih hrest, pure,
        Option.some.injEq, List.cons.injEq, and_true]
      omega
  | case2 a b =>
      have ha : a < 256 := hl a (by simp)
      have hb : b < 256 := hl b (by simp)
      have h1 := decB64_encB64 (a / 4) (by omega)
      have h2 := decB64_encB64 (a % 4 * 16 + b / 16) (by omega)
      have h3 := decB64_encB64 (b % 16 * 4) (by omega)
      have hne3 := encB64_ne_pad (b % 16 * 4) (by omega)
      rw [bufferToBase64, base64ToBuffer, h1, h2]
      simp only [Option.bind_eq_bind, Option.some_bind, if_neg hne3]
      rw [h3]
      simp only [Option.bind_eq_bind, Option.some_bind, if_true, pure,
        Option.some.injEq, List.cons.injEq, and_true]
      omega
  | case3 a =>
      have ha : a < 256 := hl a (by simp)
      have h1 := decB64_encB64 (a / 4) (by omega)
      have h2 := decB64_encB64 (a % 4 * 16) (by omega)
      rw [bufferToBase64, base64ToBuffer, h1, h2]
      simp only [Option.bind_eq_bind, Option.some_bind, if_true, and_self, pure,
        Option.some.injEq, List.cons.injEq, and_true]
      omega
  | case4 => rfl

/-! ### UTF-8 (the browser's `TextEncoder` / `TextDecoder`, as used by
`Encoder.stringToBase64`, `Encoder.base64ToString` and `Encoder.deriveKey`). -/

def utf8EncodeChar (c : Char) : List Nat :=
  if c.toNat < 128 then [c.toNat]
  else if c.toNat < 2048 then [192 + c.toNat / 64, 128 + c.toNat % 64]
  else if c.toNat < 65536 then
    [224 + c.toNat / 4096, 128 + c.toNat / 64 % 64, 128 + c.toNat % 64]
  else
    [240 + c.toNat / 262144, 128 + c.toNat / 4096 % 64, 128 + c.toNat / 64 % 64,
     128 + c.toNat % 64]

def utf8Encode (s : List Char) : List Nat := (s.map utf8EncodeChar).flatten

/-- The value carried by a UTF-8 continuation byte (`10xxxxxx`). -/
def contVal (b : Nat) : Option Nat := if 128 ≤ b ∧ b < 192 then some (b - 128) else none

/-- Decode one scalar value from the front of a UTF-8 byte stream,
rejecting overlong forms, surrogates and out-of-range values. -/
def utf8DecodeOne : List Nat → Option (Nat × List Nat)
  | [] => none
  | b1 :: rest =>
    if b1 < 128 then some (b1, rest)
    else if b1 < 192 then none
    else if b1 < 224 then do
      let b2 ← rest.head?
      let v2 ← contVal b2
      if 128 ≤ (b1 - 192) * 64 + v2 then some ((b1 - 192) * 64 + v2, rest.tail) else none
    else if b1 < 240 then do
      let b2 ← rest.head?
      let v2 ← contVal b2
      let b3 ← rest.tail.head?
      let v3 ← contVal b3
      if 2048 ≤ (b1 - 224) * 4096 + v2 * 64 + v3 ∧
         ((b1 - 224) * 4096 + v2 * 64 + v3 < 55296 ∨ 57344 ≤ (b1 - 224) * 4096 + v2 * 64 + v3)
      then some ((b1 - 224) * 4096 + v2 * 64 + v3, rest.tail.tail) else none
    else if b1 < 248 then do
      let b2 ← rest.head?
      let v2 ← contVal b2
      let b3 ← rest.tail.head?
      let v3 ← contVal b3
      let b4 ← rest.tail.tail.head?
      let v4 ← contVal b4
      if 65536 ≤ (b1 - 240) * 262144 + v2 * 4096 + v3 * 64 + v4 ∧
         (b1 - 240) * 262144 + v2 * 4096 + v3 * 64 + v4 < 1114112
      then some ((b1 - 240) * 262144 + v2 * 4096 + v3 * 64 + v4, rest.tail.tail.tail)
      else none
    else none

theorem utf8DecodeOne_shrinks :
    ∀ l n r, utf8DecodeOne l = some (n, r) → r.length < l.length := by
  intro l n r h
  have htail : ∀ t : List Nat, t.tail.length ≤ t.length := by
    intro t; cases t <;> simp
  cases l with
  | nil => simp [utf8DecodeOne] at h
  | cons b1 rest =>
      rw [utf8DecodeOne] at h
      by_cases k1 : b1 < 128
      · rw [if_pos k1] at h
        obtain ⟨-, rfl⟩ : b1 = n ∧ rest = r := by simpa using h
        simp
      · rw [if_neg k1] at h
        by_cases k2 : b1 < 192
        · rw [if_pos k2] at h; cases h
        · rw [if_neg k2] at h
          by_cases k3 : b1 < 224
          · rw [if_pos k3] at h
            simp only [Option.bind_eq_bind, Option.bind_eq_some] at h
            obtain ⟨b2, -, v2, -, h⟩ := h
            split_ifs at h
            obtain ⟨-, rfl⟩ : _ ∧ rest.tail = r := by simpa using h
            have := htail rest
            simp only [List.length_cons]
            omega
          · rw [if_neg k3] at h
            by_cases k4 : b1 < 240
            · rw [if_pos k4] at h
              simp only [Option.bind_eq_bind, Option.bind_eq_some] at h
              obtain ⟨b2, -, v2, -, b3, -, v3, -, h⟩ := h
              split_ifs at h
              obtain ⟨-, rfl⟩ : _ ∧ rest.tail.tail = r := by simpa using h
              have d1 := htail rest
              have d2 := htail rest.tail
              simp only [List.length_cons]
              omega
            · rw [if_neg k4] at h
              by_cases k5 : b1 < 248
              · rw [if_pos k5] at h
                simp only [Option.bind_eq_bind, Option.bind_eq_some] at h
                obtain ⟨b2, -, v2, -, b3, -, v3, -, b4, -, v4, -, h⟩ := h
                split_ifs at h
                obtain ⟨-, rfl⟩ : _ ∧ rest.tail.tail.tail = r := by simpa using h
                have d1 := htail rest
                have d2 := htail rest.tail
                have d3 := htail rest.tail.tail
                simp only [List.length_cons]
                omega
              · rw [if_neg k5] at h; cases h

def utf8Decode (l : List Nat) : Option (List Char) :=
  match l with
  | [] => some []
  | b1 :: rest =>
    match h : utf8DecodeOne (b1 :: rest) with
    | none => none
    | some (n, r) => (utf8Decode r).map (fun cs => Char.ofNat n :: cs)
termination_by l.length
decreasing_by exact utf8DecodeOne_shrinks _ _ _ h

theorem char_toNat_valid (c : Char) :
    c.toNat < 55296 ∨ (57344 ≤ c.toNat ∧ c.toNat < 1114112) := c.valid

theorem utf8DecodeOne_encodeChar (c : Char) (rest : List Nat) :
    utf8DecodeOne (utf8EncodeChar c ++ rest) = some (c.toNat, rest) := by
  have hv := char_toNat_valid c
  have hmax : c.toNat < 1114112 := by rcases hv with h | ⟨-, h⟩ <;> omega
  by_cases h1 : c.toNat < 128
  · rw [show utf8EncodeChar c = [c.toNat] by unfold utf8EncodeChar; rw [if_pos h1]]
    rw [List.cons_append, List.nil_append, utf8DecodeOne, if_pos h1]
  · by_cases h2 : c.toNat < 2048
    · rw [show utf8EncodeChar c = [192 + c.toNat / 64, 128 + c.toNat % 64] by
        unfold utf8EncodeChar; rw [if_neg h1, if_pos h2]]
      simp only [List.cons_append, List.nil_append, utf8DecodeOne, List.head?_cons,
        List.tail_cons, contVal, Option.bind_eq_bind, Option.some_bind]
      rw [if_neg (by omega), if_neg (by omega), if_pos (by omega),
        if_pos (by constructor <;> omega), Option.some_bind, if_pos (by omega)]
      have : (192 + c.toNat / 64 - 192) * 64 + (128 + c.toNat % 64 - 128) = c.toNat := by omega
      rw [this]
    · by_cases h3 : c.toNat < 65536
      · rw [show utf8EncodeChar c =
            [224 + c.toNat / 4096, 128 + c.toNat / 64 % 64, 128 + c.toNat % 64] by
          unfold utf8EncodeChar; rw [if_neg h1, if_neg h2, if_pos h3]]
        simp only [List.cons_append, List.nil_append, utf8DecodeOne, List.head?_cons,
          List.tail_cons, contVal, Option.bind_eq_bind, Option.some_bind]
        rw [if_neg (by omega), if_neg (by omega), if_neg (by omega), if_pos (by omega),
          if_pos (by constructor <;> omega), Option.some_bind,
          if_pos (by constructor <;> omega), Option.some_bind,
          if_pos (by refine ⟨by omega, by omega⟩)]
        have : (224 + c.toNat / 4096 - 224) * 4096 + (128 + c.toNat / 64 % 64 - 128) * 64 +
            (128 + c.toNat % 64 - 128) = c.toNat := by omega
        rw [this]
      · rw [show utf8EncodeChar c =
            [240 + c.toNat / 262144, 128 + c.toNat / 4096 % 64, 128 + c.toNat / 64 % 64,
             128 + c.toNat % 64] by
          unfold utf8EncodeChar; rw [if_neg h1, if_neg h2, if_neg h3]]
        simp only [List.cons_append, List.nil_append, utf8DecodeOne, List.head?_cons,
          List.tail_cons, contVal, Option.bind_eq_bind, Option.some_bind]
        rw [if_neg (by omega), if_neg (by omega), if_neg (by omega), if_neg (by omega),
          if_pos (by omega),
          if_pos (by constructor <;> omega), Option.some_bind,
          if_pos (by constructor <;> omega), Option.some_bind,
          if_pos (by constructor <;> omega), Option.some_bind,
          if_pos (by constructor <;> omega)]
        have : (240 + c.toNat / 262144 - 240) * 262144 + (128 + c.toNat / 4096 % 64 - 128) *
            4096 + (128 + c.toNat / 64 % 64 - 128) * 64 + (128 + c.toNat % 64 - 128) =
            c.toNat := by omega
        rw [this]

theorem utf8EncodeChar_ne_nil (c : Char) : utf8EncodeChar c ≠ [] := by
  unfold utf8EncodeChar
  split_ifs <;> simp

theorem utf8Decode_encode (s : List Char) : utf8Decode (utf8Encode s) = some s := by
  induction s with
  | nil => simp [utf8Encode, utf8Decode]
  | cons c cs ih =>
      have hstep := utf8DecodeOne_encodeChar c (utf8Encode cs)
      have hne := utf8EncodeChar_ne_nil c
      rw [show utf8Encode (c :: cs) = utf8EncodeChar c ++ utf8Encode cs by
        simp [utf8Encode]]
      rcases henc : utf8EncodeChar c ++ utf8Encode cs with _ | ⟨b1, rest⟩
      · exact absurd (List.append_eq_nil.mp henc).1 hne
      · rw [utf8Decode, ← henc, hstep]
        change Option.map (fun cs => Char.ofNat c.toNat :: cs) (utf8Decode (utf8Encode cs)) =
          some (c :: cs)
        rw [ih]
        simp [Char.ofNat_toNat]

theorem utf8EncodeChar_bytes (c : Char) : ByteList (utf8EncodeChar c) := by
  have hv := char_toNat_valid c
  have hmax : c.toNat < 1114112 := by rcases hv with h | ⟨-, h⟩ <;> omega
  intro b hb
  unfold utf8EncodeChar at hb
  split_ifs at hb <;> simp at hb <;> omega

theorem utf8Encode_bytes (s : List Char) : ByteList (utf8Encode s) := by
  intro b hb
  simp only [utf8Encode, List.mem_flatten, List.mem_map] at hb
  obtain ⟨l, ⟨c, -, rfl⟩, hbl⟩ := hb
  exact utf8EncodeChar_bytes c b hbl

theorem utf8Encode_inj : Function.Injective utf8Encode := by
  intro a b hab
  have ha := utf8Decode_encode a
  have hb := utf8Decode_encode b
  rw [hab, hb] at ha
  exact ((Option.some.injEq _ _).mp ha).symm

/-- `Encoder.stringToBase64`: `bufferToBase64(new TextEncoder().encode(str))`. -/
def stringToBase64 (s : List Char) : List Char := bufferToBase64 (utf8Encode s)

/-- `Encoder.base64ToString`: `new TextDecoder().decode(base64ToBuffer(base64))`. -/
def base64ToString (t : List Char) : Option (List Char) :=
  (base64ToBuffer t).bind utf8Decode

/-- Unicode-safe text round trip of `Encoder.stringToBase64` /
`Encoder.base64ToString`, for every string including multi-byte characters. -/
theorem stringToBase64_roundtrip (s : List Char) :
    base64ToString (stringToBase64 s) = some s := by
  rw [base64ToString, stringToBase64, b64_roundtrip _ (utf8Encode_bytes s),
    Option.some_bind, utf8Decode_encode]

/-! ### HeaderStage: the `AETHER|` header object (script.js App.generateLink
lines 585-613; part_004 lines 780-795 with `Encoder.stringToBase64`).
`JSON.stringify` / `JSON.parse` are embedded at the header object's exact
shape: insertion-ordered keys, `undefined`-valued keys dropped, string
escaping as the JSON grammar prescribes. -/

/-- Decimal digits of a natural number, most significant first
(accumulator form of `Number.prototype.toString()`). -/
def natToDecAux : Nat → List Char → List Char
  | 0, acc => acc
  | n + 1, acc => natToDecAux ((n + 1) / 10) (Char.ofNat (48 + (n + 1) % 10) :: acc)
decreasing_by omega

def natToDec (n : Nat) : List Char := if n = 0 then [('0')] else natToDecAux n []

theorem natToDecAux_acc : ∀ n acc, natToDecAux n acc = natToDecAux n [] ++ acc := by
  intro n
  induction n using Nat.strong_induction_on with
  | _ n ih =>
      intro acc
      match n with
      | 0 => simp [natToDecAux]
      | m + 1 =>
          rw [natToDecAux, natToDecAux]
          rw [ih ((m + 1) / 10) (by omega) (Char.ofNat (48 + (m + 1) % 10) :: acc),
            ih ((m + 1) / 10) (by omega) [Char.ofNat (48 + (m + 1) % 10)]]
          simp

theorem digit_toNat : ∀ d < 10, (Char.ofNat (48 + d)).toNat = 48 + d := by decide

theorem digit_isDigit : ∀ d < 10, (Char.ofNat (48 + d)).isDigit = true := by decide

def decValue (ds : List Char) : Nat := ds.foldl (fun a c => a * 10 + (c.toNat - 48)) 0

theorem decValueAux : ∀ n a, (natToDecAux n []).foldl
    (fun a c => a * 10 + (c.toNat - 48)) a =
    a * 10 ^ (natToDecAux n []).length + n := by
  intro n
  induction n using Nat.strong_induction_on with
  | _ n ih =>
      intro a
      match n with
      | 0 => simp [natToDecAux]
      | m + 1 =>
          rw [natToDecAux, natToDecAux_acc]
          rw [List.foldl_append, List.length_append]
          rw [ih ((m + 1) / 10) (by omega) a]
          simp only [List.foldl_cons, List.foldl_nil, List.length_cons, List.length_nil]
          rw [digit_toNat ((m + 1) % 10) (by omega)]
          rw [pow_succ]
          have h10 : (0 : Nat) < 10 ^ (natToDecAux ((m + 1) / 10) []).length :=
            Nat.pos_pow_of_pos _ (by omega)
          ring_nf
          omega

theorem decValue_natToDec (n : Nat) : decValue (natToDec n) = n := by
  rw [natToDec]
  split_ifs with h0
  · subst h0
    decide
  · rw [decValue, decValueAux n 0]
    omega

theorem natToDec_digits (n : Nat) : ∀ c ∈ natToDec n, c.isDigit = true := by
  rw [natToDec]
  split_ifs with h0
  · intro c hc
    simp at hc
    subst hc
    decide
  · suffices h : ∀ m, ∀ c ∈ natToDecAux m [], c.isDigit = true by exact h n
    intro m
    induction m using Nat.strong_induction_on with
    | _ m ih =>
        intro c hc
        match m with
        | 0 => simp [natToDecAux] at hc
        | k + 1 =>
            rw [natToDecAux, natToDecAux_acc] at hc
            rcases List.mem_append.mp hc with h | h
            · exact ih ((k + 1) / 10) (by omega) c h
            · simp at h
              subst h
              exact digit_isDigit ((k + 1) % 10) (by omega)

def hexDigit (n : Nat) : Char := (("0123456789abcdef").toList).getD n ('0')

def hexVal (c : Char) : Option Nat := (("0123456789abcdef").toList).findIdx? (fun d => d = c)

theorem hexVal_hexDigit : ∀ v < 16, hexVal (hexDigit v) = some v := by decide

/-- `JSON.stringify` escaping of one character inside a string literal. -/
def escapeChar (c : Char) : List Char :=
  if c = '"' then ['\\', '"']
  else if c = '\\' then ['\\', '\\']
  else if c = Char.ofNat 8 then ['\\', 'b']
  else if c = Char.ofNat 9 then ['\\', 't']
  else if c = Char.ofNat 10 then ['\\', 'n']
  else if c = Char.ofNat 12 then ['\\', 'f']
  else if c = Char.ofNat 13 then ['\\', 'r']
  else if c.toNat < 32 then
    ['\\', 'u', '0', '0', hexDigit (c.toNat / 16), hexDigit (c.toNat % 16)]
  else [c]

def escapeString (s : List Char) : List Char := (s.map escapeChar).flatten

/-- A JSON string literal: quote, escaped content, quote. -/
def jsonString (s : List Char) : List Char := '"' :: escapeString s ++ ['"']

/-- Read the remainder of a JSON string literal (after the opening
quote): unescape until the closing quote, returning the content and the
rest of the input. -/
def unescape : List Char → Option (List Char × List Char)
  | [] => none
  | c :: rest =>
    if c = '"' then some ([], rest)
    else if c = '\\' then do
      let e ← rest.head?
      if e = '"' then (unescape rest.tail).map (fun p => ('"' :: p.1, p.2))
      else if e = '\\' then (unescape rest.tail).map (fun p => ('\\' :: p.1, p.2))
      else if e = 'b' then (unescape rest.tail).map (fun p => (Char.ofNat 8 :: p.1, p.2))
      else if e = 't' then (unescape rest.tail).map (fun p => (Char.ofNat 9 :: p.1, p.2))
      else if e = 'n' then (unescape rest.tail).map (fun p => (Char.ofNat 10 :: p.1, p.2))
      else if e = 'f' then (unescape rest.tail).map (fun p => (Char.ofNat 12 :: p.1, p.2))
      else if e = 'r' then (unescape rest.tail).map (fun p => (Char.ofNat 13 :: p.1, p.2))
      else if e = 'u' then do
        let z1 ← rest.tail.head?
        let z2 ← rest.tail.tail.head?
        let x1 ← rest.tail.tail.tail.head?
        let x2 ← rest.tail.tail.tail.tail.head?
        if z1 = '0' ∧ z2 = '0' then do
          let v1 ← hexVal x1
          let v2 ← hexVal x2
          (unescape rest.tail.tail.tail.tail.tail).map
            (fun p => (Char.ofNat (16 * v1 + v2) :: p.1, p.2))
        else none
      else none
    else (unescape rest).map (fun p => (c :: p.1, p.2))
termination_by l => l.length
decreasing_by all_goals
  simp only [List.length_cons, List.length_tail]
  omega

def parseJsonString (s : List Char) : Option (List Char × List Char) :=
  match s with
  | '"' :: rest => unescape rest
  | _ => none

theorem unescape_empty (l : List Char) : unescape ('"' :: l) = some ([], l) := by
  rw [unescape]
  rfl

theorem unescape_esc_quote (l : List Char) :
    unescape ('\\' :: '"' :: l) = (unescape l).map (fun p => ('"' :: p.1, p.2)) := by
  rw [unescape]
  rfl

theorem unescape_esc_bslash (l : List Char) :
    unescape ('\\' :: '\\' :: l) = (unescape l).map (fun p => ('\\' :: p.1, p.2)) := by
  rw [unescape]
  rfl

theorem unescape_esc_b (l : List Char) :
    unescape ('\\' :: 'b' :: l) = (unescape l).map (fun p => (Char.ofNat 8 :: p.1, p.2)) := by
  rw [unescape]
  rfl

theorem unescape_esc_t (l : List Char) :
    unescape ('\\' :: 't' :: l) = (unescape l).map (fun p => (Char.ofNat 9 :: p.1, p.2)) := by
  rw [unescape]
  rfl

theorem unescape_esc_n (l : List Char) :
    unescape ('\\' :: 'n' :: l) = (unescape l).map (fun p => (Char.ofNat 10 :: p.1, p.2)) := by
  rw [unescape]
  rfl

theorem unescape_esc_f (l : List Char) :
    unescape ('\\' :: 'f' :: l) = (unescape l).map (fun p => (Char.ofNat 12 :: p.1, p.2)) := by
  rw [unescape]
  rfl

theorem unescape_esc_r (l : List Char) :
    unescape ('\\' :: 'r' :: l) = (unescape l).map (fun p => (Char.ofNat 13 :: p.1, p.2)) := by
  rw [unescape]
  rfl

theorem unescape_esc_u (a b : Char) (l : List Char) :
    unescape ('\\' :: 'u' :: '0' :: '0' :: a :: b :: l) =
      (hexVal a).bind (fun v1 => (hexVal b).bind (fun v2 =>
        (unescape l).map (fun p => (Char.ofNat (16 * v1 + v2) :: p.1, p.2)))) := by
  rw [unescape]
  rfl

theorem unescape_plain (c : Char) (h1 : ¬c = '"') (h2 : ¬c = '\\') (l : List Char) :
    unescape (c :: l) = (unescape l).map (fun p => (c :: p.1, p.2)) := by
  rw [unescape, if_neg h1, if_neg h2]

theorem unescape_escape : ∀ (s rest : List Char),
    unescape (escapeString s ++ '"' :: rest) = some (s, rest) := by
  intro s
  induction s with
  | nil =>
      intro rest
      rw [show escapeString [] = [] from rfl, List.nil_append, unescape_empty]
  | cons c cs ih =>
      intro rest
      rw [show escapeString (c :: cs) = escapeChar c ++ escapeString cs by
        simp [escapeString], List.append_assoc, escapeChar]
      split_ifs with h1 h2 h3 h4 h5 h6 h7 h8
      · subst h1
        rw [List.cons_append, List.cons_append, List.nil_append,
          unescape_esc_quote, ih rest]
        rfl
      · subst h2
        rw [List.cons_append, List.cons_append, List.nil_append,
          unescape_esc_bslash, ih rest]
        rfl
      · subst h3
        rw [List.cons_append, List.cons_append, List.nil_append,
          unescape_esc_b, ih rest]
        rfl
      · subst h4
        rw [List.cons_append, List.cons_append, List.nil_append,
          unescape_esc_t, ih rest]
        rfl
      · subst h5
        rw [List.cons_append, List.cons_append, List.nil_append,
          unescape_esc_n, ih rest]
        rfl
      · subst h6
        rw [List.cons_append, List.cons_append, List.nil_append,
          unescape_esc_f, ih rest]
        rfl
      · subst h7
        rw [List.cons_append, List.cons_append, List.nil_append,
          unescape_esc_r, ih rest]
        rfl
      · simp only [List.cons_append, List.nil_append]
        rw [unescape_esc_u, hexVal_hexDigit (c.toNat / 16) (by omega),
          hexVal_hexDigit (c.toNat % 16) (by omega)]
        simp only [Option.some_bind]
        rw [ih rest,
          show 16 * (c.toNat / 16) + c.toNat % 16 = c.toNat by omega,
          Char.ofNat_toNat]
        rfl
      · rw [List.cons_append, List.nil_append, unescape_plain c h1 h2, ih rest]
        rfl

/-- Header object sent in the `AETHER|` locator (App.generateLink).
`geo` is omitted from the model: its coordinates are floating-point
numbers, outside the byte/integer fragment embedded here. -/
structure FileHeader where
  filename : List Char
  vibe : Option (List Char)
  encrypted : Bool
  expiry : Option Nat
  salt : Option (List Char)
  iv : Option (List Char)
deriving DecidableEq, Repr

def filenameKey : List Char := Char.ofNat 123 :: ("\"filename\":\"").toList

def vibeKey : List Char := (",\"vibe\":\"").toList

def encKey : List Char := (",\"encrypted\":").toList

def expiryKey : List Char := (",\"expiry\":").toList

def saltKey : List Char := (",\"salt\":\"").toList

def ivKey : List Char := (",\"iv\":\"").toList

def brace : List Char := [Char.ofNat 125]

def boolLit (b : Bool) : List Char := if b then ("true").toList else ("false").toList

def strField (key : List Char) : Option (List Char) → List Char
  | none => []
  | some v => key ++ escapeString v ++ ['"']

def numField : Option Nat → List Char
  | none => []
  | some n => expiryKey ++ natToDec n

/-- `JSON.stringify(header)`: the exact text JavaScript produces for the
header object (insertion-ordered keys, `undefined`-valued keys dropped,
no whitespace). -/
def headerToJson (h : FileHeader) : List Char :=
  filenameKey ++ escapeString h.filename ++ '"' ::
    (strField vibeKey h.vibe ++ (encKey ++ (boolLit h.encrypted ++ (numField h.expiry ++
      (strField saltKey h.salt ++ (strField ivKey h.iv ++ brace))))))

def expectLit : List Char → List Char → Option (List Char)
  | [], s => some s
  | c :: cs, s =>
    match s with
    | [] => none
    | d :: ds => if d = c then expectLit cs ds else none

theorem expectLit_append : ∀ (lit rest : List Char),
    expectLit lit (lit ++ rest) = some rest := by
  intro lit
  induction lit with
  | nil => intro rest; rfl
  | cons c cs ih =>
      intro rest
      rw [List.cons_append, expectLit]
      simp only [if_pos rfl]
      exact ih rest

def parseNumber (s : List Char) : Option (Nat × List Char) :=
  let ds := s.takeWhile Char.isDigit
  if ds.isEmpty then none else some (decValue ds, s.drop ds.length)

def parseOptStr (key : List Char) (s : List Char) : Option (Option (List Char) × List Char) :=
  match expectLit key s with
  | some s1 => (unescape s1).map (fun p => (some p.1, p.2))
  | none => some (none, s)

def parseBool (s : List Char) : Option (Bool × List Char) :=
  match expectLit (("true").toList) s with
  | some s1 => some (true, s1)
  | none =>
    match expectLit (("false").toList) s with
    | some s1 => some (false, s1)
    | none => none

def parseOptNum (key : List Char) (s : List Char) : Option (Option Nat × List Char) :=
  match expectLit key s with
  | some s1 => (parseNumber s1).map (fun p => (some p.1, p.2))
  | none => some (none, s)

/-- `JSON.parse` at the header's object shape: the inverse reading of
the text `headerToJson` produces. -/
def parseHeader (s : List Char) : Option FileHeader := do
  let s ← expectLit filenameKey s
  let (fn, s) ← unescape s
  let (vb, s) ← parseOptStr vibeKey s
  let s ← expectLit encKey s
  let (enc, s) ← parseBool s
  let (ex, s) ← parseOptNum expiryKey s
  let (sa, s) ← parseOptStr saltKey s
  let (iv, s) ← parseOptStr ivKey s
  let s ← expectLit brace s
  if s = [] then some ⟨fn, vb, enc, ex, sa, iv⟩ else none

theorem parseOptStr_of_none (key s : List Char) (h : expectLit key s = none) :
    parseOptStr key s = some (none, s) := by
  simp only [parseOptStr, h]

theorem parseOptStr_of_some (key s s1 : List Char) (h : expectLit key s = some s1) :
    parseOptStr key s = (unescape s1).map (fun p => (some p.1, p.2)) := by
  simp only [parseOptStr, h]

theorem parseOptNum_of_none (key s : List Char) (h : expectLit key s = none) :
    parseOptNum key s = some (none, s) := by
  simp only [parseOptNum, h]

theorem parseOptNum_of_some (key s s1 : List Char) (h : expectLit key s = some s1) :
    parseOptNum key s = (parseNumber s1).map (fun p => (some p.1, p.2)) := by
  simp only [parseOptNum, h]

theorem natToDec_ne_nil (n : Nat) : natToDec n ≠ [] := by
  rw [natToDec]
  split_ifs with h0
  · simp
  · match n, h0 with
    | m + 1, _ =>
        rw [natToDecAux, natToDecAux_acc]
        simp

theorem takeWhile_digits : ∀ (l : List Char), (∀ x ∈ l, x.isDigit = true) →
    ∀ (c : Char), c.isDigit = false → ∀ rest,
    (l ++ c :: rest).takeWhile Char.isDigit = l := by
  intro l
  induction l with
  | nil =>
      intro _ c hc rest
      simp [List.takeWhile_cons, hc]
  | cons a l ih =>
      intro hl c hc rest
      rw [List.cons_append, List.takeWhile_cons, hl a (by simp)]
      rw [if_pos rfl, ih (fun x hx => hl x (by simp [hx])) c hc rest]

theorem parseNumber_natToDec (n : Nat) (c : Char) (hc : c.isDigit = false)
    (rest : List Char) :
    parseNumber (natToDec n ++ c :: rest) = some (n, c :: rest) := by
  simp only [parseNumber]
  rw [takeWhile_digits (natToDec n) (natToDec_digits n) c hc rest]
  rw [if_neg (by simp [List.isEmpty_iff, natToDec_ne_nil n])]
  rw [decValue_natToDec, List.drop_left]

theorem strField_split (key v z : List Char) :
    strField key (some v) ++ z = key ++ (escapeString v ++ '"' :: z) := by
  rw [strField]
  simp [List.append_assoc]

theorem parse_strField (key : List Char) (vb : Option (List Char)) (z : List Char)
    (hz : expectLit key z = none) :
    parseOptStr key (strField key vb ++ z) = some (vb, z) := by
  cases vb with
  | none =>
      rw [strField, List.nil_append]
      exact parseOptStr_of_none key z hz
  | some v =>
      rw [strField_split,
        parseOptStr_of_some key _ _ (expectLit_append key (escapeString v ++ '"' :: z)),
        unescape_escape]
      rfl

theorem parse_vibe_slot (vb : Option (List Char)) (w : List Char) :
    parseOptStr vibeKey (strField vibeKey vb ++ (encKey ++ w)) =
      some (vb, encKey ++ w) :=
  parse_strField vibeKey vb (encKey ++ w) rfl

theorem parse_bool_slot (b : Bool) (z : List Char) :
    parseBool (boolLit b ++ z) = some (b, z) := by
  cases b with
  | true =>
      rw [show boolLit true = ("true").toList from rfl]
      simp only [parseBool, expectLit_append]
  | false =>
      rw [show boolLit false = ("false").toList from rfl]
      simp only [parseBool,
        show expectLit (("true").toList) ((("false").toList) ++ z) = none from rfl,
        expectLit_append]

theorem expectLit_salt_tail (iv : Option (List Char)) :
    expectLit saltKey (strField ivKey iv ++ brace) = none := by
  cases iv <;> rfl

theorem expectLit_expiry_tail (sa iv : Option (List Char)) :
    expectLit expiryKey (strField saltKey sa ++ (strField ivKey iv ++ brace)) = none := by
  cases sa <;> cases iv <;> rfl

theorem tail_head (sa iv : Option (List Char)) :
    ∃ c rest, strField saltKey sa ++ (strField ivKey iv ++ brace) = c :: rest ∧
      c.isDigit = false := by
  cases sa with
  | some v => exact ⟨',', _, rfl, by decide⟩
  | none =>
      cases iv with
      | some v => exact ⟨',', _, rfl, by decide⟩
      | none => exact ⟨Char.ofNat 125, [], rfl, by decide⟩

theorem parse_expiry_slot (ex : Option Nat) (sa iv : Option (List Char)) :
    parseOptNum expiryKey
      (numField ex ++ (strField saltKey sa ++ (strField ivKey iv ++ brace))) =
      some (ex, strField saltKey sa ++ (strField ivKey iv ++ brace)) := by
  cases ex with
  | none =>
      rw [numField, List.nil_append]
      exact parseOptNum_of_none expiryKey _ (expectLit_expiry_tail sa iv)
  | some n =>
      rw [numField, List.append_assoc,
        parseOptNum_of_some expiryKey _ _ (expectLit_append expiryKey _)]
      obtain ⟨c, rest, heq, hdig⟩ := tail_head sa iv
      rw [heq, parseNumber_natToDec n c hdig rest, ← heq]
      rfl

theorem parse_salt_slot (sa iv : Option (List Char)) :
    parseOptStr saltKey (strField saltKey sa ++ (strField ivKey iv ++ brace)) =
      some (sa, strField ivKey iv ++ brace) :=
  parse_strField saltKey sa _ (expectLit_salt_tail iv)

theorem parse_iv_slot (iv : Option (List Char)) :
    parseOptStr ivKey (strField ivKey iv ++ brace) = some (iv, brace) :=
  parse_strField ivKey iv brace rfl

theorem parseHeader_headerToJson (h : FileHeader) :
    parseHeader (headerToJson h) = some h := by
  obtain ⟨fn, vb, enc, ex, sa, iv⟩ := h
  rw [headerToJson]
  simp only [parseHeader, Option.bind_eq_bind]
  rw [List.append_assoc, expectLit_append, Option.some_bind, unescape_escape,
    Option.some_bind, parse_vibe_slot, Option.some_bind, expectLit_append,
    Option.some_bind, parse_bool_slot, Option.some_bind, parse_expiry_slot,
    Option.some_bind, parse_salt_slot, Option.some_bind, parse_iv_slot,
    Option.some_bind, show expectLit brace brace = some [] from rfl,
    Option.some_bind, if_pos rfl]

def encodeHeader (h : FileHeader) : List Char := stringToBase64 (headerToJson h)

def decodeHeader (t : List Char) : Option FileHeader :=
  (base64ToString t).bind parseHeader

/-- C4: for every FileHeader with a non-empty filename — including
filenames with non-ASCII, multi-byte characters — decoding the encoded
header text yields the header exactly: the `stringToBase64` /
`base64ToString` pair of part_004 routes the JSON text through UTF-8
bytes, so the encoding is reversible byte for byte. -/
theorem header_roundtrip (h : FileHeader) (hfn : h.filename ≠ []) :
    decodeHeader (encodeHeader h) = some h := by
  rw [decodeHeader, encodeHeader, stringToBase64_roundtrip, Option.some_bind,
    parseHeader_headerToJson]

def hdrW : FileHeader :=
  { filename := 'é' :: ("fi.txt").toList
    vibe := some (("synthwave").toList)
    encrypted := true
    expiry := some 1735689600000
    salt := some (("c2FsdA==").toList)
    iv := some (("aXY=").toList) }

theorem header_roundtrip_witness :
    hdrW.filename ≠ [] ∧ decodeHeader (encodeHeader hdrW) = some hdrW :=
  ⟨by decide, header_roundtrip hdrW (by decide)⟩

/-! ### CryptoStage: `Encoder.deriveKey`, `Encoder.encrypt`, `Encoder.decrypt`
(script.js lines 71-119).

AES-GCM and PBKDF2 are `window.crypto.subtle` platform primitives, not
repository code.  They are modelled by the `SubtleCrypto` structure below:
its proof fields state the idealized guarantees of an authenticated
encryption scheme (round trip, ciphertexts decrypt only to their genuine
plaintext, single-bit tampering is detected, distinct keys cannot explain
the same ciphertext).  For real AES-GCM those guarantees hold
computationally; here they are explicit hypotheses, and the concrete
instance `idealCrypto` shows they are satisfiable and makes every
theorem evaluable. -/

/-- Flip one bit of a byte sequence: bit `i % 8` of byte `i / 8`. -/
def flipBit (i : Nat) (l : List Nat) : List Nat :=
  l.set (i / 8) (l.getD (i / 8) 0 ^^^ 2 ^ (i % 8))

theorem flipBit_length (i : Nat) (l : List Nat) : (flipBit i l).length = l.length := by
  simp [flipBit]

theorem xor_pow_ne (x k : Nat) : x ^^^ 2 ^ k ≠ x := by
  intro h
  have h2 : x ^^^ (x ^^^ 2 ^ k) = x ^^^ x := by rw [h]
  rw [Nat.xor_self, ← Nat.xor_assoc, Nat.xor_self, Nat.zero_xor] at h2
  exact absurd h2 (by positivity)

theorem flipBit_bytes (i : Nat) (l : List Nat) (hl : ByteList l) : ByteList (flipBit i l) := by
  intro b hb
  rcases List.mem_or_eq_of_mem_set hb with h | h
  · exact hl b h
  · subst h
    have hx : l.getD (i / 8) 0 < 256 := by
      rcases Nat.lt_or_ge (i / 8) l.length with hlt | hge
      · rw [List.getD_eq_getElem?_getD, List.getElem?_eq_getElem hlt]
        exact hl _ (List.getElem_mem hlt)
      · rw [List.getD_eq_getElem?_getD, List.getElem?_eq_none hge]
        simp
    have hp : (2 : Nat) ^ (i % 8) < 256 :=
      Nat.lt_of_lt_of_le (Nat.pow_lt_pow_right (by omega) (Nat.mod_lt i (by omega))) (by norm_num)
    exact Nat.xor_lt_two_pow (n := 8) hx hp

theorem flipBit_ne (i : Nat) (l : List Nat) (h : i < 8 * l.length) : flipBit i l ≠ l := by
  intro heq
  have hj : i / 8 < l.length := by omega
  have h1 : (l.set (i / 8) (l.getD (i / 8) 0 ^^^ 2 ^ (i % 8)))[i / 8]? =
      some (l.getD (i / 8) 0 ^^^ 2 ^ (i % 8)) := List.getElem?_set_self hj
  rw [show l.set (i / 8) (l.getD (i / 8) 0 ^^^ 2 ^ (i % 8)) = flipBit i l from rfl, heq,
    List.getElem?_eq_getElem hj] at h1
  have h2 : l[i / 8] = l.getD (i / 8) 0 ^^^ 2 ^ (i % 8) := by
    exact (Option.some.injEq _ _).mp h1
  have hg : l.getD (i / 8) 0 = l[i / 8] := by
    rw [List.getD_eq_getElem?_getD, List.getElem?_eq_getElem hj]
    rfl
  rw [hg] at h2
  exact xor_pow_ne _ _ h2.symm

/-- Number of positions where two byte sequences differ. -/
def diffCount : List Nat → List Nat → Nat
  | a :: as, b :: bs => (if a = b then 0 else 1) + diffCount as bs
  | _, _ => 0

theorem diffCount_self : ∀ l : List Nat, diffCount l l = 0 := by
  intro l
  induction l with
  | nil => rfl
  | cons a as ih => simp [diffCount, ih]

theorem diffCount_append : ∀ (a b x y : List Nat), a.length = b.length →
    diffCount (a ++ x) (b ++ y) = diffCount a b + diffCount x y := by
  intro a
  induction a with
  | nil => intro b x y hb; rw [List.length_nil] at hb
           rw [List.eq_nil_of_length_eq_zero hb.symm]; simp [diffCount]
  | cons c cs ih =>
      intro b x y hb
      cases b with
      | nil => simp at hb
      | cons d ds =>
          simp only [List.cons_append, List.append_eq, diffCount, List.length_cons] at hb ⊢
          rw [ih ds x y (by omega)]
          omega

theorem diffCount_pos : ∀ a b : List Nat, a.length = b.length → a ≠ b →
    1 ≤ diffCount a b := by
  intro a
  induction a with
  | nil => intro b hl hne
           exact absurd (List.eq_nil_of_length_eq_zero hl.symm).symm hne
  | cons c cs ih =>
      intro b hl hne
      cases b with
      | nil => simp at hl
      | cons d ds =>
          by_cases hcd : c = d
          · subst hcd
            have : cs ≠ ds := by intro h; exact hne (by rw [h])
            have := ih ds (by simpa using hl) this
            simp [diffCount]
            omega
          · simp [diffCount, hcd]

theorem diffCount_set (l : List Nat) : ∀ (j v : Nat), diffCount l (l.set j v) ≤ 1 := by
  induction l with
  | nil => intro j v; simp [diffCount]
  | cons a as ih =>
      intro j v
      cases j with
      | zero => simp [List.set, diffCount, diffCount_self]; split <;> omega
      | succ k =>
          have hik := ih k v
          simp only [List.set, diffCount, eq_self_iff_true, if_true]
          omega

theorem diffCount_flipBit (i : Nat) (l : List Nat) : diffCount l (flipBit i l) ≤ 1 :=
  diffCount_set l (i / 8) _

structure SubtleCrypto where
  pbkdf2 : Nat → List Char → List Nat → List Nat → List Nat
  aesGcmEnc : List Nat → List Nat → List Nat → List Nat
  aesGcmDec : List Nat → List Nat → List Nat → Option (List Nat)
  pbkdf2_bytes : ∀ it hash km salt, ByteList km → ByteList salt →
    ByteList (pbkdf2 it hash km salt)
  pbkdf2_len : ∀ it hash km salt, (pbkdf2 it hash km salt).length = 32
  aesGcmEnc_bytes : ∀ key iv pt, ByteList key → ByteList iv → ByteList pt →
    ByteList (aesGcmEnc key iv pt)
  aesGcmDec_enc : ∀ key iv pt, aesGcmDec key iv (aesGcmEnc key iv pt) = some pt
  aesGcmDec_genuine : ∀ key iv ct pt, aesGcmDec key iv ct = some pt →
    ct = aesGcmEnc key iv pt
  aesGcmEnc_bitflip_far : ∀ key iv pt pt' i, i < 8 * (aesGcmEnc key iv pt).length →
    aesGcmEnc key iv pt' ≠ flipBit i (aesGcmEnc key iv pt)
  aesGcmEnc_key_inj : ∀ key key' iv pt pt', key.length = key'.length →
    aesGcmEnc key iv pt = aesGcmEnc key' iv pt' → key = key'

/-- `Encoder.deriveKey(password, salt)`: PBKDF2 with 100000 iterations and
SHA-256 over the UTF-8 bytes of the password, giving an AES-256 key.
The fixed parameters appear here once; both `encrypt` and `decrypt`
derive their key through this single definition. -/
def deriveKey (S : SubtleCrypto) (password : List Char) (salt : List Nat) : List Nat :=
  S.pbkdf2 100000 (("SHA-256").toList) (utf8Encode password) salt

/-- The record returned by `Encoder.encrypt`: base64 text for salt, iv
and ciphertext. -/
structure EncryptedPayload where
  salt : List Char
  iv : List Char
  data : List Char

/-- `Encoder.encrypt(blob, password)`.  The 16-byte salt and 12-byte iv
are produced by `crypto.getRandomValues`; here they enter as arguments
(the random source of the model). -/
def encrypt (S : SubtleCrypto) (salt iv : List Nat) (blob : List Nat)
    (password : List Char) : EncryptedPayload :=
  let key := deriveKey S password salt
  let encryptedBuffer := S.aesGcmEnc key iv blob
  { salt := bufferToBase64 salt
    iv := bufferToBase64 iv
    data := bufferToBase64 encryptedBuffer }

/-- `Encoder.decrypt(base64Data, password, base64Salt, base64Iv)`;
`none` models the thrown `OperationError` on authentication failure
(and a malformed-base64 throw). -/
def decrypt (S : SubtleCrypto) (base64Data : List Char) (password : List Char)
    (base64Salt base64Iv : List Char) : Option (List Nat) := do
  let salt ← base64ToBuffer base64Salt
  let iv ← base64ToBuffer base64Iv
  let encryptedData ← base64ToBuffer base64Data
  let key := deriveKey S password salt
  S.aesGcmDec key iv encryptedData

/-- Concrete instance of the idealized platform crypto: the key is a
fixed-length digest of key material and salt, and a ciphertext is the
plaintext stored twice followed by key and iv, so that it authenticates
its exact provenance and any single-bit change breaks the redundancy. -/
def idealCrypto : SubtleCrypto where
  pbkdf2 _ _ km salt := (km ++ salt ++ List.replicate 32 0).take 32
  aesGcmEnc key iv pt := pt ++ pt ++ key ++ iv
  aesGcmDec key iv ct :=
    if ct = ct.take ((ct.length - key.length - iv.length) / 2) ++
        ct.take ((ct.length - key.length - iv.length) / 2) ++ key ++ iv
    then some (ct.take ((ct.length - key.length - iv.length) / 2)) else none
  pbkdf2_bytes := by
    intro it hash km salt hkm hsalt b hb
    have hb' := List.mem_of_mem_take hb
    rcases List.mem_append.mp hb' with h | h
    · rcases List.mem_append.mp h with h' | h'
      · exact hkm b h'
      · exact hsalt b h'
    · have := List.eq_of_mem_replicate h
      omega
  pbkdf2_len := by
    intro it hash km salt
    rw [List.length_take]
    simp
    omega
  aesGcmEnc_bytes := by
    intro key iv pt hkey hiv hpt b hb
    simp only [List.append_assoc, List.mem_append] at hb
    rcases hb with h | h | h | h
    · exact hpt b h
    · exact hpt b h
    · exact hkey b h
    · exact hiv b h
  aesGcmDec_enc := by
    intro key iv pt
    have hlen : (pt ++ pt ++ key ++ iv).length = 2 * pt.length + key.length + iv.length := by
      simp
      omega
    have hm : ((pt ++ pt ++ key ++ iv).length - key.length - iv.length) / 2 = pt.length := by
      omega
    have htake : (pt ++ pt ++ key ++ iv).take pt.length = pt := by
      rw [List.append_assoc, List.append_assoc, List.take_left]
    simp only [hm, htake, if_pos rfl]
    simp
  aesGcmDec_genuine := by
    intro key iv ct pt h
    dsimp only at h ⊢
    split_ifs at h with hcond
    obtain rfl : ct.take ((ct.length - key.length - iv.length) / 2) = pt := by
      simpa using h
    exact hcond
  aesGcmEnc_bitflip_far := by
    intro key iv pt pt2 i hi heq
    dsimp only at hi heq
    have hlen2 : (pt2 ++ pt2 ++ key ++ iv).length = (pt ++ pt ++ key ++ iv).length := by
      rw [heq, flipBit_length]
    have hpt2 : pt2.length = pt.length := by
      simp only [List.length_append] at hlen2
      omega
    by_cases hpp : pt2 = pt
    · subst hpp
      exact flipBit_ne i _ hi heq.symm
    · have hdiff : diffCount (pt ++ pt ++ key ++ iv) (pt2 ++ pt2 ++ key ++ iv) =
          diffCount pt pt2 + diffCount pt pt2 := by
        rw [diffCount_append _ _ _ _ (by simp [hpt2]),
          diffCount_append _ _ _ _ (by simp [hpt2]),
          diffCount_append _ _ _ _ (by simp [hpt2]),
          diffCount_self, diffCount_self]
        omega
      have hpos : 1 ≤ diffCount pt pt2 :=
        diffCount_pos pt pt2 hpt2.symm (fun h => hpp h.symm)
      have hflip : diffCount (pt ++ pt ++ key ++ iv) (pt2 ++ pt2 ++ key ++ iv) ≤ 1 := by
        rw [heq]
        exact diffCount_flipBit i _
      omega
  aesGcmEnc_key_inj := by
    intro key key2 iv pt pt2 hklen heq
    dsimp only at heq
    have hlen : pt.length = pt2.length := by
      have := congrArg List.length heq
      simp only [List.length_append] at this
      omega
    rw [List.append_assoc, List.append_assoc, List.append_assoc, List.append_assoc] at heq
    obtain ⟨-, heq2⟩ := List.append_inj heq hlen
    obtain ⟨-, heq3⟩ := List.append_inj heq2 hlen
    exact (List.append_inj heq3 hklen).1

/-- Claim C1: for every byte sequence `b` and non-empty password `p`,
decrypting the output of `Encoder.encrypt(b, p)` with the same password
and the salt and iv returned by that call yields exactly `b`; the key is
derived deterministically from (password, salt) by the single
`deriveKey` definition (PBKDF2, 100000 iterations, SHA-256) on both
sides.  `S` is any platform crypto satisfying the idealized AES-GCM
guarantees; `salt` and `iv` are the 16- and 12-byte random values drawn
inside `encrypt`. -/
theorem encrypt_decrypt_roundtrip (S : SubtleCrypto) (salt iv b : List Nat)
    (p : List Char) (hp : p ≠ []) (hsalt : ByteList salt) (hiv : ByteList iv)
    (hb : ByteList b) (hsl : salt.length = 16) (hil : iv.length = 12) :
    decrypt S (encrypt S salt iv b p).data p (encrypt S salt iv b p).salt
      (encrypt S salt iv b p).iv = some b := by
  have hkey : ByteList (deriveKey S p salt) :=
    S.pbkdf2_bytes _ _ _ _ (utf8Encode_bytes p) hsalt
  have hct : ByteList (S.aesGcmEnc (deriveKey S p salt) iv b) :=
    S.aesGcmEnc_bytes _ _ _ hkey hiv hb
  simp only [encrypt, decrypt]
  rw [b64_roundtrip _ hsalt, b64_roundtrip _ hiv, b64_roundtrip _ hct]
  simp only [Option.bind_eq_bind, Option.some_bind]
  exact S.aesGcmDec_enc _ _ _

/-- Claim C2: decryption fails — returning the single authentication
failure (`none`), never some other plaintext — both when any single bit
of the ciphertext produced by `encrypt(b, p)` is flipped before
decryption, and when the password given to `decrypt` differs from `p`
(more precisely, derives a different key: PBKDF2 collision-freedom at
the two passwords is the cryptographic hypothesis `hkeys`).  Both
failure causes surface as the same `none`; the result value carries no
information about which cause occurred. -/
theorem decrypt_rejects_tamper_and_wrong_password (S : SubtleCrypto)
    (salt iv b : List Nat) (p p2 : List Char)
    (hsalt : ByteList salt) (hiv : ByteList iv) (hb : ByteList b)
    (hsl : salt.length = 16) (hil : iv.length = 12)
    (hpp : p2 ≠ p) (hkeys : deriveKey S p2 salt ≠ deriveKey S p salt) :
    (∀ ct, base64ToBuffer (encrypt S salt iv b p).data = some ct →
      ∀ i, i < 8 * ct.length →
        decrypt S (bufferToBase64 (flipBit i ct)) p
          (encrypt S salt iv b p).salt (encrypt S salt iv b p).iv = none) ∧
    decrypt S (encrypt S salt iv b p).data p2
      (encrypt S salt iv b p).salt (encrypt S salt iv b p).iv = none := by
  have hkey : ByteList (deriveKey S p salt) :=
    S.pbkdf2_bytes _ _ _ _ (utf8Encode_bytes p) hsalt
  have hct : ByteList (S.aesGcmEnc (deriveKey S p salt) iv b) :=
    S.aesGcmEnc_bytes _ _ _ hkey hiv hb
  constructor
  · intro ct hctdec i hi
    have hctval : ct = S.aesGcmEnc (deriveKey S p salt) iv b := by
      simp only [encrypt] at hctdec
      rw [b64_roundtrip _ hct] at hctdec
      exact ((Option.some.injEq _ _).mp hctdec).symm
    have hctB : ByteList ct := by rw [hctval]; exact hct
    have hflip : ByteList (flipBit i ct) := flipBit_bytes i ct hctB
    simp only [encrypt, decrypt]
    rw [b64_roundtrip _ hsalt, b64_roundtrip _ hiv, b64_roundtrip _ hflip]
    simp only [Option.bind_eq_bind, Option.some_bind]
    rcases hdec : S.aesGcmDec (deriveKey S p salt) iv (flipBit i ct) with _ | pt2
    · rfl
    · have hgen := S.aesGcmDec_genuine _ _ _ _ hdec
      rw [hctval] at hgen hi
      exact absurd hgen.symm (S.aesGcmEnc_bitflip_far _ _ b pt2 i hi)
  · simp only [encrypt, decrypt]
    rw [b64_roundtrip _ hsalt, b64_roundtrip _ hiv, b64_roundtrip _ hct]
    simp only [Option.bind_eq_bind, Option.some_bind]
    rcases hdec : S.aesGcmDec (deriveKey S p2 salt) iv
        (S.aesGcmEnc (deriveKey S p salt) iv b) with _ | pt2
    · rfl
    · have hgen := S.aesGcmDec_genuine _ _ _ _ hdec
      have hklen : (deriveKey S p salt).length = (deriveKey S p2 salt).length := by
        simp [deriveKey, S.pbkdf2_len]
      exact absurd (S.aesGcmEnc_key_inj _ _ _ _ _ hklen hgen).symm hkeys

/-- Sample random salt used by the crypto witnesses. -/
def saltW : List Nat := List.replicate 16 0

/-- Sample random iv used by the crypto witnesses. -/
def ivW : List Nat := List.replicate 12 1

/-- Sample plaintext used by the crypto witnesses. -/
def bW : List Nat := [104, 105]

/-- Sample password used by the crypto witnesses. -/
def pW : List Char := ("pw").toList

/-- A different password used by the wrong-password witness. -/
def p2W : List Char := ("qw").toList

/-- The concrete ciphertext bytes produced inside
`encrypt idealCrypto saltW ivW bW pW`. -/
def ctW : List Nat := idealCrypto.aesGcmEnc (deriveKey idealCrypto pW saltW) ivW bW

theorem encrypt_decrypt_roundtrip_witness :
    pW ≠ [] ∧ ByteList bW ∧
    decrypt idealCrypto (encrypt idealCrypto saltW ivW bW pW).data pW
      (encrypt idealCrypto saltW ivW bW pW).salt
      (encrypt idealCrypto saltW ivW bW pW).iv = some bW :=
  ⟨by decide, by decide,
   encrypt_decrypt_roundtrip idealCrypto saltW ivW bW pW (by decide)
     (by decide) (by decide) (by decide) (by decide) (by decide)⟩

theorem decrypt_rejects_witness :
    p2W ≠ pW ∧ (0 : Nat) < 8 * ctW.length ∧
    decrypt idealCrypto (bufferToBase64 (flipBit 0 ctW)) pW
      (encrypt idealCrypto saltW ivW bW pW).salt
      (encrypt idealCrypto saltW ivW bW pW).iv = none ∧
    decrypt idealCrypto (encrypt idealCrypto saltW ivW bW pW).data p2W
      (encrypt idealCrypto saltW ivW bW pW).salt
      (encrypt idealCrypto saltW ivW bW pW).iv = none :=
  ⟨by decide, by decide,
   (decrypt_rejects_tamper_and_wrong_password idealCrypto saltW ivW bW pW p2W
     (by decide) (by decide) (by decide) (by decide) (by decide) (by decide)
     (by decide)).1 ctW (by decide) 0 (by decide),
   (decrypt_rejects_tamper_and_wrong_password idealCrypto saltW ivW bW pW p2W
     (by decide) (by decide) (by decide) (by decide) (by decide) (by decide)
     (by decide)).2⟩

/-! ### CompressionStage: `Encoder.compressStream` / `Encoder.decompressBlob`
(script.js lines 37-49).

The gzip codec itself is the browser's `CompressionStream` /
`DecompressionStream`; the repository only wraps it, falling back to the
identity when the environment lacks the stream classes.  The codec is
modelled by a structure whose law is the lossless round trip of gzip,
instantiated concretely by `gzipW` below. -/

structure GzipCodec where
  deflate : List Nat → List Nat
  inflate : List Nat → Option (List Nat)
  inflate_deflate : ∀ b, inflate (deflate b) = some b

/-- `Encoder.compressStream`: gzip when `window.CompressionStream` is
available, otherwise the bytes pass through unchanged. -/
def compressStream (G : GzipCodec) (hasCompressionStream : Bool)
    (data : List Nat) : List Nat :=
  if hasCompressionStream then G.deflate data else data

/-- `Encoder.decompressBlob`: gunzip when `window.DecompressionStream` is
available, otherwise the blob is returned unchanged; `none` models the
stream error on invalid gzip input. -/
def decompressBlob (G : GzipCodec) (hasDecompressionStream : Bool)
    (blob : List Nat) : Option (List Nat) :=
  if hasDecompressionStream then G.inflate blob else some blob

/-- Claim C3: for every byte sequence `b`, including the empty one,
decompressing the result of compressing `b` yields exactly `b`.  The
feature flags of the two sides agree (`henv`): compressing and
decompressing happen in environments that either both have the stream
classes or both lack them. -/
theorem compress_decompress_roundtrip (G : GzipCodec) (hasCS hasDS : Bool)
    (b : List Nat) (henv : hasCS = hasDS) :
    decompressBlob G hasDS (compressStream G hasCS b) = some b := by
  subst henv
  cases hasCS with
  | false => simp [compressStream, decompressBlob]
  | true => simp [compressStream, decompressBlob, G.inflate_deflate]

/-- A concrete lossless codec: prepend the two gzip magic bytes. -/
def gzipW : GzipCodec where
  deflate b := 31 :: 139 :: b
  inflate l :=
    match l with
    | 31 :: 139 :: rest => some rest
    | _ => none
  inflate_deflate := by intro b; rfl

theorem compress_decompress_roundtrip_witness :
    decompressBlob gzipW true (compressStream gzipW true [7, 8, 9]) = some [7, 8, 9] ∧
    decompressBlob gzipW true (compressStream gzipW true []) = some [] :=
  ⟨compress_decompress_roundtrip gzipW true true [7, 8, 9] rfl,
   compress_decompress_roundtrip gzipW true true [] rfl⟩

/-! ### Locator dispatch: `App.handleRouting` and the branch structure of
`App.showReceiver` (script.js lines 338-345 and 353-418). -/

inductive Route where
  | sender
  | beam
  | aether
  | legacySecure
  | legacyPlain
deriving DecidableEq

/-- `String.prototype.split(sep)` as used on the hash:
`""` splits to `[""]`, and separators delimit (possibly empty) fields. -/
def jsSplit (sep : Char) : List Char → List (List Char)
  | [] => [[]]
  | c :: rest =>
    if c = sep then [] :: jsSplit sep rest
    else
      match jsSplit sep rest with
      | f :: r => (c :: f) :: r
      | [] => [[c]]

theorem jsSplit_ne_nil (sep : Char) (l : List Char) : jsSplit sep l ≠ [] := by
  cases l with
  | nil => simp [jsSplit]
  | cons c rest =>
      rw [jsSplit]
      split_ifs
      · simp
      · rcases jsSplit sep rest with _ | ⟨f, r⟩ <;> simp

theorem jsSplit_headD (sep : Char) (l : List Char) :
    (jsSplit sep l).headD [] = l.takeWhile (fun c => c != sep) := by
  induction l with
  | nil => rfl
  | cons c rest ih =>
      rw [jsSplit, List.takeWhile]
      by_cases hc : c = sep
      · subst hc
        simp
      · rw [if_neg hc]
        rcases hsp : jsSplit sep rest with _ | ⟨f, r⟩
        · exact absurd hsp (jsSplit_ne_nil sep rest)
        · rw [hsp] at ih
          simp only [List.headD_cons] at ih ⊢
          rw [ih]
          have hb : (c != sep) = true := by simp [hc]
          rw [hb]

/-- The decode-path selection performed by `App.handleRouting` (which
shows the receiver only for a hash longer than 5 characters containing
`'|'`) composed with the prefix/first-field dispatch at the top of
`App.showReceiver`. -/
def route (hash : List Char) : Route :=
  if hash.length > 5 ∧ '|' ∈ hash then
    if (("BEAM|").toList).isPrefixOf hash then Route.beam
    else if (("AETHER|").toList).isPrefixOf hash then Route.aether
    else if (jsSplit '|' hash).headD [] = ("SECURE").toList then Route.legacySecure
    else Route.legacyPlain
  else Route.sender

/-- Claim C5 as stated: dispatch driven only by prefix / first field /
presence of a delimiter, with no length condition. -/
def routeClaim (hash : List Char) : Route :=
  if '|' ∉ hash then Route.sender
  else if (("BEAM|").toList).isPrefixOf hash then Route.beam
  else if (("AETHER|").toList).isPrefixOf hash then Route.aether
  else if hash.takeWhile (fun c => c != '|') = ("SECURE").toList then Route.legacySecure
  else Route.legacyPlain

/-- Claim C5 amended: as stated, except that a text of length at most 5
also falls back to the sender view, even when it contains a delimiter. -/
def routeSpec (hash : List Char) : Route :=
  if '|' ∉ hash ∨ hash.length ≤ 5 then Route.sender
  else if (("BEAM|").toList).isPrefixOf hash then Route.beam
  else if (("AETHER|").toList).isPrefixOf hash then Route.aether
  else if hash.takeWhile (fun c => c != '|') = ("SECURE").toList then Route.legacySecure
  else Route.legacyPlain

/-- Claim C5, counterexample to the claim as stated: `"a|b"` contains a
delimiter and matches no scheme prefix, so the claim sends it down the
legacy-plaintext path, but the code routes it to the sender view because
the hash is not longer than 5 characters. -/
theorem route_claim_counterexample :
    '|' ∈ ("a|b").toList ∧
    routeClaim (("a|b").toList) = Route.legacyPlain ∧
    route (("a|b").toList) = Route.sender ∧
    route (("a|b").toList) ≠ routeClaim (("a|b").toList) := by decide

/-- Claim C5 amended: for every locator text, exactly one decode path is
selected, purely syntactically — `BEAM|` prefix, else `AETHER|` prefix,
else first `'|'`-field `SECURE`, else legacy-plaintext when a delimiter
is present; texts with no delimiter, or of length at most 5, fall back
to the sender view. -/
theorem route_eq_routeSpec (hash : List Char) : route hash = routeSpec hash := by
  rw [route, routeSpec, jsSplit_headD]
  by_cases h1 : '|' ∈ hash <;> by_cases h2 : hash.length > 5
  · rw [if_pos ⟨h2, h1⟩,
      if_neg (show ¬('|' ∉ hash ∨ hash.length ≤ 5) by push_neg; exact ⟨h1, by omega⟩)]
  · rw [if_neg (show ¬(hash.length > 5 ∧ '|' ∈ hash) from fun h => h2 h.1),
      if_pos (Or.inr (by omega))]
  · rw [if_neg (show ¬(hash.length > 5 ∧ '|' ∈ hash) from fun h => h1 h.2),
      if_pos (Or.inl h1)]
  · rw [if_neg (show ¬(hash.length > 5 ∧ '|' ∈ hash) from fun h => h2 h.1),
      if_pos (Or.inl h1)]

/-! ### ChunkedTransport sender: `P2P.sendFile` (p2p.js lines 63-110, and
the identical chunked V3 sender in the unnamed p2p source).  The trace of
one `sendFile` call is modelled as the list of channel sends, progress
callbacks and event-loop yields, in order. -/

def CHUNK_SIZE : Nat := 16 * 1024

/-- `Math.min(100, Math.round((offset / totalSize) * 100))`, with the
float arithmetic modelled exactly over the rationals. -/
def progressPercent (offset total : Nat) : Int :=
  min 100 (round ((offset : ℚ) / total * 100))

inductive SendEvent where
  | meta (filename : List Char) (size : Nat) (fileType : List Char) (totalChunks : Nat)
      (extra : List (List Char × List Char))
  | chunk (offset : Nat) (data : List Nat)
  | progress (percent : Int) (offset : Nat) (total : Nat)
  | pause
deriving DecidableEq

/-- The chunk-sending `while` loop of `P2P.sendFile`: slice, send, bump
the offset and chunk index, report progress, and yield to the event loop
after every 50th chunk. -/
def sendLoop (file : List Nat) (offset chunkIndex : Nat) : List SendEvent :=
  if offset < file.length then
    SendEvent.chunk offset ((file.drop offset).take CHUNK_SIZE) ::
    SendEvent.progress (progressPercent (offset + CHUNK_SIZE) file.length)
      (offset + CHUNK_SIZE) file.length ::
    ((if (chunkIndex + 1) % 50 = 0 then [SendEvent.pause] else []) ++
      sendLoop file (offset + CHUNK_SIZE) (chunkIndex + 1))
  else []
termination_by file.length - offset
decreasing_by simp only [CHUNK_SIZE]; omega

/-- `Math.ceil(totalSize / CHUNK_SIZE)`. -/
def numChunks (len : Nat) : Nat := (len + CHUNK_SIZE - 1) / CHUNK_SIZE

/-- `P2P.sendFile(file, extraMeta, onProgress)`: one metadata frame,
then the chunk loop. -/
def sendFileTrace (file : List Nat) (filename fileType : List Char)
    (extra : List (List Char × List Char)) : List SendEvent :=
  SendEvent.meta filename file.length fileType (numChunks file.length) extra ::
    sendLoop file 0 0

/-- The chunk frames of a trace, as (offset, data) pairs. -/
def chunkOf (e : SendEvent) : Option (Nat × List Nat) :=
  match e with
  | SendEvent.chunk o d => some (o, d)
  | _ => none

/-- The progress-callback invocations of a trace, as
(percent, offset, total) triples. -/
def progOf (e : SendEvent) : Option (Int × Nat × Nat) :=
  match e with
  | SendEvent.progress p o t => some (p, o, t)
  | _ => none

def chunkEvents (evs : List SendEvent) : List (Nat × List Nat) := evs.filterMap chunkOf

def progressEvents (evs : List SendEvent) : List (Int × Nat × Nat) := evs.filterMap progOf

def isMeta (e : SendEvent) : Bool :=
  match e with
  | SendEvent.meta _ _ _ _ _ => true
  | _ => false

theorem sendLoop_no_meta (file : List Nat) :
    ∀ offset chunkIndex, ∀ e ∈ sendLoop file offset chunkIndex, isMeta e = false := by
  intro offset chunkIndex
  induction offset, chunkIndex using sendLoop.induct file with
  | case1 offset chunkIndex hlt ih =>
      intro e he
      rw [sendLoop, if_pos hlt] at he
      simp only [List.mem_cons, List.mem_append] at he
      rcases he with rfl | rfl | he | he
      · rfl
      · rfl
      · split_ifs at he <;> simp at he
        subst he
        rfl
      · exact ih e he
  | case2 offset chunkIndex hge =>
      intro e he
      rw [sendLoop, if_neg hge] at he
      cases he

/-- The (offset, data) pairs the loop emits from a given offset on. -/
def chunkList (file : List Nat) (offset : Nat) : List (Nat × List Nat) :=
  if offset < file.length then
    (offset, (file.drop offset).take CHUNK_SIZE) :: chunkList file (offset + CHUNK_SIZE)
  else []
termination_by file.length - offset
decreasing_by simp only [CHUNK_SIZE]; omega

/-- The (percent, offset, total) triples the loop emits from a given
offset on. -/
def progList (file : List Nat) (offset : Nat) : List (Int × Nat × Nat) :=
  if offset < file.length then
    (progressPercent (offset + CHUNK_SIZE) file.length, offset + CHUNK_SIZE, file.length) ::
      progList file (offset + CHUNK_SIZE)
  else []
termination_by file.length - offset
decreasing_by simp only [CHUNK_SIZE]; omega

theorem chunkEvents_sendLoop (file : List Nat) :
    ∀ offset chunkIndex, chunkEvents (sendLoop file offset chunkIndex) =
      chunkList file offset := by
  intro offset chunkIndex
  induction offset, chunkIndex using sendLoop.induct file with
  | case1 offset chunkIndex hlt ih =>
      rw [sendLoop, if_pos hlt, chunkList, if_pos hlt, chunkEvents,
        List.filterMap_cons_some (rfl :
          chunkOf (SendEvent.chunk offset ((file.drop offset).take CHUNK_SIZE)) = _),
        List.filterMap_cons_none (rfl :
          chunkOf (SendEvent.progress (progressPercent (offset + CHUNK_SIZE) file.length)
            (offset + CHUNK_SIZE) file.length) = none),
        List.filterMap_append]
      rw [show List.filterMap chunkOf
          (if (chunkIndex + 1) % 50 = 0 then [SendEvent.pause] else []) = [] by
        split_ifs <;> rfl]
      rw [List.nil_append, ← chunkEvents, ih]
  | case2 offset chunkIndex hge =>
      rw [sendLoop, if_neg hge, chunkList, if_neg hge]
      rfl

theorem progressEvents_sendLoop (file : List Nat) :
    ∀ offset chunkIndex, progressEvents (sendLoop file offset chunkIndex) =
      progList file offset := by
  intro offset chunkIndex
  induction offset, chunkIndex using sendLoop.induct file with
  | case1 offset chunkIndex hlt ih =>
      rw [sendLoop, if_pos hlt, progList, if_pos hlt, progressEvents,
        List.filterMap_cons_none (rfl :
          progOf (SendEvent.chunk offset ((file.drop offset).take CHUNK_SIZE)) = none),
        List.filterMap_cons_some (rfl :
          progOf (SendEvent.progress (progressPercent (offset + CHUNK_SIZE) file.length)
            (offset + CHUNK_SIZE) file.length) = _),
        List.filterMap_append]
      rw [show List.filterMap progOf
          (if (chunkIndex + 1) % 50 = 0 then [SendEvent.pause] else []) = [] by
        split_ifs <;> rfl]
      rw [List.nil_append, ← progressEvents, ih]
  | case2 offset chunkIndex hge =>
      rw [sendLoop, if_neg hge, progList, if_neg hge]
      rfl

theorem chunkList_join (file : List Nat) :
    ∀ offset, ((chunkList file offset).map Prod.snd).flatten = file.drop offset := by
  intro offset
  induction offset using chunkList.induct file with
  | case1 offset hlt ih =>
      rw [chunkList, if_pos hlt, List.map_cons, List.flatten_cons, ih]
      have hd : List.drop (offset + CHUNK_SIZE) file =
          List.drop CHUNK_SIZE (List.drop offset file) := by
        rw [List.drop_drop, Nat.add_comm]
      rw [hd]
      exact List.take_append_drop _ _
  | case2 offset hge =>
      rw [chunkList, if_neg hge]
      rw [List.drop_eq_nil_of_le (by omega)]
      rfl

theorem chunk_index_lt (len i : Nat) :
    i * CHUNK_SIZE < len ↔ i < numChunks len := by
  rw [numChunks, CHUNK_SIZE]
  omega

theorem chunkList_offsets (file : List Nat) :
    ∀ offset, ∀ i, offset = i * CHUNK_SIZE →
      (chunkList file offset).map Prod.fst =
        (List.range' i (numChunks file.length - i)).map (fun k => k * CHUNK_SIZE) := by
  intro offset
  induction offset using chunkList.induct file with
  | case1 offset hlt ih =>
      intro i hoff
      subst hoff
      have hi : i < numChunks file.length := (chunk_index_lt _ _).mp hlt
      rw [chunkList, if_pos hlt, List.map_cons,
        ih (i + 1) (by rw [Nat.succ_mul]),
        show numChunks file.length - i = (numChunks file.length - (i + 1)) + 1 by omega,
        List.range'_succ, List.map_cons]
  | case2 offset hge =>
      intro i hoff
      subst hoff
      have hi : ¬ i < numChunks file.length := fun h => hge ((chunk_index_lt _ _).mpr h)
      rw [chunkList, if_neg hge, show numChunks file.length - i = 0 by omega]
      rfl

theorem chunkList_data_le (file : List Nat) :
    ∀ offset, ∀ p ∈ chunkList file offset,
      (Prod.snd p).length ≤ CHUNK_SIZE ∧ Prod.snd p ≠ [] := by
  intro offset
  induction offset using chunkList.induct file with
  | case1 offset hlt ih =>
      intro p hp
      rw [chunkList, if_pos hlt] at hp
      rcases List.mem_cons.mp hp with rfl | hp
      · constructor
        · simp [List.length_take]
        · have : ((file.drop offset).take CHUNK_SIZE).length ≠ 0 := by
            rw [List.length_take, List.length_drop, CHUNK_SIZE]
            omega
          intro hnil
          have hnil2 : (file.drop offset).take CHUNK_SIZE = [] := hnil
          rw [hnil2] at this
          exact this rfl
      · exact ih p hp
  | case2 offset hge =>
      intro p hp
      rw [chunkList, if_neg hge] at hp
      cases hp

theorem chunkList_eq_nil_iff (file : List Nat) (offset : Nat) :
    chunkList file offset = [] ↔ ¬ offset < file.length := by
  constructor
  · intro h hlt
    rw [chunkList, if_pos hlt] at h
    cases h
  · intro h
    rw [chunkList, if_neg h]

theorem chunkList_full_except_last (file : List Nat) :
    ∀ offset, ∀ p ∈ (chunkList file offset).dropLast,
      (Prod.snd p).length = CHUNK_SIZE := by
  intro offset
  induction offset using chunkList.induct file with
  | case1 offset hlt ih =>
      intro p hp
      rw [chunkList, if_pos hlt] at hp
      rcases hrest : chunkList file (offset + CHUNK_SIZE) with _ | ⟨q, qs⟩
      · rw [hrest] at hp
        cases hp
      · rw [hrest, List.dropLast_cons₂] at hp
        rcases List.mem_cons.mp hp with rfl | hp
        · have hnext : offset + CHUNK_SIZE < file.length := by
            by_contra hc
            rw [(chunkList_eq_nil_iff file _).mpr hc] at hrest
            cases hrest
          simp only [List.length_take, List.length_drop]
          omega
        · have := ih p
          rw [hrest] at this
          exact this hp
  | case2 offset hge =>
      intro p hp
      rw [chunkList, if_neg hge] at hp
      cases hp

theorem progList_closed (file : List Nat) :
    ∀ offset, ∀ i, offset = i * CHUNK_SIZE →
      progList file offset =
        (List.range' (i + 1) (numChunks file.length - i)).map
          (fun k => (progressPercent (k * CHUNK_SIZE) file.length,
            k * CHUNK_SIZE, file.length)) := by
  intro offset
  induction offset using progList.induct file with
  | case1 offset hlt ih =>
      intro i hoff
      subst hoff
      rw [progList, if_pos hlt,
        ih (i + 1) (by rw [Nat.succ_mul]),
        show numChunks file.length - i = (numChunks file.length - (i + 1)) + 1 by
          have := (chunk_index_lt file.length i).mp hlt
          omega,
        List.range'_succ, List.map_cons, Nat.succ_mul]
  | case2 offset hge =>
      intro i hoff
      subst hoff
      have hi : ¬ i < numChunks file.length := fun h => hge ((chunk_index_lt _ _).mpr h)
      rw [progList, if_neg hge, show numChunks file.length - i = 0 by omega]
      rfl

/-- Adjacency discipline of the sender trace: every chunk frame is
followed at once by the matching progress report of the advanced offset,
and a yield to the scheduler appears exactly after the progress report
of every 50th chunk. -/
def sendStep (len : Nat) : SendEvent → SendEvent → Prop :=
  fun a b =>
    (∀ o d, a = SendEvent.chunk o d →
      b = SendEvent.progress (progressPercent (o + CHUNK_SIZE) len) (o + CHUNK_SIZE) len) ∧
    (∀ p o t, a = SendEvent.progress p o t → o / CHUNK_SIZE % 50 = 0 →
      b = SendEvent.pause) ∧
    (b = SendEvent.pause →
      ∃ o, a = SendEvent.progress (progressPercent o len) o len ∧ o / CHUNK_SIZE % 50 = 0)

theorem sendLoop_head (file : List Nat) (offset chunkIndex : Nat) :
    ∀ e ∈ (sendLoop file offset chunkIndex).head?, ∃ d, e = SendEvent.chunk offset d := by
  intro e he
  rw [sendLoop] at he
  by_cases h : offset < file.length
  · rw [if_pos h] at he
    simp only [List.head?_cons, Option.mem_def, Option.some.injEq] at he
    exact ⟨_, he.symm⟩
  · rw [if_neg h] at he
    cases he

theorem sendLoop_chain (file : List Nat) :
    ∀ offset chunkIndex, offset = chunkIndex * CHUNK_SIZE →
      List.Chain' (sendStep file.length) (sendLoop file offset chunkIndex) := by
  intro offset chunkIndex
  induction offset, chunkIndex using sendLoop.induct file with
  | case1 offset chunkIndex hlt ih =>
      intro hoff
      subst hoff
      rw [sendLoop, if_pos hlt]
      rw [List.chain'_cons]
      constructor
      · refine ⟨?_, ?_, ?_⟩
        · intro o d h
          injection h with h1 h2
          subst h1
          rfl
        · intro p o t h
          cases h
        · intro h
          cases h
      · by_cases h50 : (chunkIndex + 1) % 50 = 0
        · rw [if_pos h50]
          rw [show ([SendEvent.pause] ++
              sendLoop file (chunkIndex * CHUNK_SIZE + CHUNK_SIZE) (chunkIndex + 1)) =
              SendEvent.pause ::
                sendLoop file (chunkIndex * CHUNK_SIZE + CHUNK_SIZE) (chunkIndex + 1) from rfl]
          rw [List.chain'_cons]
          constructor
          · refine ⟨?_, ?_, ?_⟩
            · intro o d h
              cases h
            · intro p o t h _
              rfl
            · intro _
              refine ⟨chunkIndex * CHUNK_SIZE + CHUNK_SIZE, rfl, ?_⟩
              simp only [CHUNK_SIZE] at h50 ⊢
              omega
          · rw [List.chain'_cons']
            constructor
            · intro y hy
              obtain ⟨d, rfl⟩ := sendLoop_head file _ _ y hy
              refine ⟨?_, ?_, ?_⟩
              · intro o d2 h
                cases h
              · intro p o t h
                cases h
              · intro h
                cases h
            · exact ih (by rw [Nat.succ_mul])
        · rw [if_neg h50, List.nil_append, List.chain'_cons']
          constructor
          · intro y hy
            obtain ⟨d, rfl⟩ := sendLoop_head file _ _ y hy
            refine ⟨?_, ?_, ?_⟩
            · intro o d2 h
              cases h
            · intro p o t h h2
              injection h with h1 h3
              subst h3
              simp only [CHUNK_SIZE] at h2 h50
              omega
            · intro h
              cases h
          · exact ih (by rw [Nat.succ_mul])
  | case2 offset chunkIndex hge =>
      intro hoff
      rw [sendLoop, if_neg hge]
      exact List.chain'_nil

/-- Claim C6 (amended): the chunked sender emits exactly one metadata
frame first (filename, total size, MIME hint, chunk count, extra crypto
parameters), then chunk frames in strictly increasing offset order
(`k * 16384`), each at most 16384 bytes and nonempty with only the last
chunk shorter, whose concatenation is the file; after each chunk it
invokes the progress callback with
`(percent, chunkIndex * 16384, totalBytes)` — the advanced offset, which
exceeds the file size on the final chunk when the size is not a multiple
of 16384 — and it yields to the scheduler exactly after every 50th
chunk. -/
theorem sendFile_trace_spec (file : List Nat) (filename fileType : List Char)
    (extra : List (List Char × List Char)) :
    (sendFileTrace file filename fileType extra).head? =
      some (SendEvent.meta filename file.length fileType
        (numChunks file.length) extra) ∧
    (∀ e ∈ (sendFileTrace file filename fileType extra).tail, isMeta e = false) ∧
    (chunkEvents (sendFileTrace file filename fileType extra)).map Prod.fst =
      (List.range (numChunks file.length)).map (fun k => k * CHUNK_SIZE) ∧
    List.Pairwise (· < ·)
      ((chunkEvents (sendFileTrace file filename fileType extra)).map Prod.fst) ∧
    (∀ p ∈ chunkEvents (sendFileTrace file filename fileType extra),
      (Prod.snd p).length ≤ CHUNK_SIZE ∧ Prod.snd p ≠ []) ∧
    (∀ p ∈ (chunkEvents (sendFileTrace file filename fileType extra)).dropLast,
      (Prod.snd p).length = CHUNK_SIZE) ∧
    ((chunkEvents (sendFileTrace file filename fileType extra)).map Prod.snd).flatten =
      file ∧
    progressEvents (sendFileTrace file filename fileType extra) =
      (List.range' 1 (numChunks file.length)).map
        (fun k => (progressPercent (k * CHUNK_SIZE) file.length,
          k * CHUNK_SIZE, file.length)) ∧
    List.Chain' (sendStep file.length)
      (sendFileTrace file filename fileType extra).tail := by
  have hce : chunkEvents (sendFileTrace file filename fileType extra) =
      chunkList file 0 := by
    rw [sendFileTrace, chunkEvents, List.filterMap_cons_none
      (rfl : chunkOf (SendEvent.meta filename file.length fileType
        (numChunks file.length) extra) = none), ← chunkEvents,
      chunkEvents_sendLoop]
  have hpe : progressEvents (sendFileTrace file filename fileType extra) =
      progList file 0 := by
    rw [sendFileTrace, progressEvents, List.filterMap_cons_none
      (rfl : progOf (SendEvent.meta filename file.length fileType
        (numChunks file.length) extra) = none), ← progressEvents,
      progressEvents_sendLoop]
  have hoffs : (chunkEvents (sendFileTrace file filename fileType extra)).map Prod.fst =
      (List.range (numChunks file.length)).map (fun k => k * CHUNK_SIZE) := by
    rw [hce, chunkList_offsets file 0 0 (by omega), List.range_eq_range']
    rw [Nat.sub_zero]
  refine ⟨rfl, ?_, hoffs, ?_, ?_, ?_, ?_, ?_, ?_⟩
  · intro e he
    exact sendLoop_no_meta file 0 0 e he
  · rw [hoffs]
    refine List.Pairwise.map _ (fun a b hab => ?_) (List.pairwise_lt_range _)
    have hc : 0 < CHUNK_SIZE := by simp only [CHUNK_SIZE]; omega
    exact Nat.mul_lt_mul_of_lt_of_le hab (Nat.le_refl _) hc
  · intro p hp
    rw [hce] at hp
    exact chunkList_data_le file 0 p hp
  · intro p hp
    rw [hce] at hp
    exact chunkList_full_except_last file 0 p hp
  · rw [hce, chunkList_join, List.drop_zero]
  · rw [hpe, progList_closed file 0 0 (by omega), Nat.sub_zero]
  · exact sendLoop_chain file 0 0 (by omega)

/-- Claim C6, counterexample to the claim as stated: for a 10-byte file
the single progress callback receives `(100, 16384, 10)`, whose middle
component is the advanced offset 16384 and not the 10 bytes of the file
actually sent, and even exceeds the total. -/
theorem sendFile_bytesSent_counterexample :
    progressEvents (sendFileTrace (List.replicate 10 7) [] [] []) =
      [(100, 16384, 10)] ∧
    (((chunkEvents (sendFileTrace (List.replicate 10 7) [] [] [])).map
      Prod.snd).flatten).length = 10 ∧
    (16384 : Nat) ≠ 10 := by
  have h7 := sendFile_trace_spec (List.replicate 10 7) [] [] []
  obtain ⟨-, -, -, -, -, -, hjoin, hprog, -⟩ := h7
  have hn : numChunks (List.replicate 10 7).length = 1 := by
    simp [numChunks, CHUNK_SIZE]
  refine ⟨?_, ?_, by omega⟩
  · rw [hprog, hn]
    rw [show List.range' 1 1 = [1] from rfl, List.map_singleton]
    have hpct : progressPercent (1 * CHUNK_SIZE) (List.replicate 10 7).length = 100 := by
      rw [progressPercent, CHUNK_SIZE, List.length_replicate]
      have hq : ((16 * 1024 : Nat) : ℚ) / (10 : Nat) * 100 = ((163840 : ℤ) : ℚ) := by
        norm_num
      rw [show (1 * (16 * 1024) : Nat) = 16 * 1024 from rfl, hq, round_intCast]
      rfl
    rw [hpct]
    simp [CHUNK_SIZE]
  · rw [hjoin]
    simp

/-! ### ChunkedTransport receiver: the beam data handler of
`App.showReceiver` (unnamed source part_004, lines 403-469) and the
close handler of `P2P.connect` (part_003, lines 136-162). -/

/-- A data-channel message of the chunked V3 protocol. -/
inductive Msg where
  | meta (filename : List Char) (size : Nat) (fileType : List Char) (totalChunks : Nat)
      (extra : List (List Char × List Char))
  | chunk (offset : Nat) (data : List Nat)
deriving DecidableEq

/-- What the receiver observes: data messages, and the channel's `close`
event (from `P2P.connect`). -/
inductive RxEvent where
  | data (m : Msg)
  | close
deriving DecidableEq

/-- The receive-side session state: `App.showReceiver`'s `incomingFile`
record (`chunks`, `receivedSize`, `totalSize`, `initialized`) together
with the observable outcome (`receivedBlob`, a count of completion
declarations, a count of dropped pre-metadata chunks, and the error
reported by the p2p error callback). -/
structure RecvState where
  chunks : List (List Nat)
  receivedSize : Nat
  totalSize : Nat
  metaSeen : Bool
  receivedBlob : Option (List Nat)
  completions : Nat
  droppedChunks : Nat
  errorMsg : Option (List Char)
deriving DecidableEq

/-- The state set up by `showReceiver` before connecting. -/
def recvInit : RecvState :=
  { chunks := [], receivedSize := 0, totalSize := 0, metaSeen := false,
    receivedBlob := none, completions := 0, droppedChunks := 0, errorMsg := none }

/-- The fixed message of `new Error("Connection closed by remote peer.")`
raised by `P2P.connect`'s close handler. -/
def closeErrMsg : List Char := ("Connection closed by remote peer.").toList

/-- One step of the beam data handler in `App.showReceiver` (chunks
before metadata are warned about and dropped; a chunk is appended and,
when the accumulated size reaches the total, the blob is finalized from
the chunks in arrival order and the buffers are discarded), plus the
close handler of `P2P.connect` reporting its fixed error. -/
def recvStep (s : RecvState) : RxEvent → RecvState
  | RxEvent.data (Msg.meta _ size _ _ _) =>
      { s with totalSize := size, metaSeen := true }
  | RxEvent.data (Msg.chunk _ d) =>
      if s.metaSeen = false then { s with droppedChunks := s.droppedChunks + 1 }
      else
        if s.receivedSize + d.length ≥ s.totalSize then
          { s with
              chunks := []
              receivedSize := s.receivedSize + d.length
              receivedBlob := some (s.chunks ++ [d]).flatten
              completions := s.completions + 1 }
        else
          { s with chunks := s.chunks ++ [d], receivedSize := s.receivedSize + d.length }
  | RxEvent.close => { s with errorMsg := some closeErrMsg }

/-- Chunk messages for a list of (offset, data) pairs. -/
def chunkMsgs (ps : List (Nat × List Nat)) : List RxEvent :=
  ps.map (fun p => RxEvent.data (Msg.chunk p.1 p.2))

theorem recv_drop_before_meta : ∀ ps : List (Nat × List Nat),
    List.foldl recvStep recvInit (chunkMsgs ps) =
      { recvInit with droppedChunks := ps.length } := by
  have gen : ∀ (ps : List (Nat × List Nat)) (k : Nat),
      List.foldl recvStep { recvInit with droppedChunks := k } (chunkMsgs ps) =
        { recvInit with droppedChunks := k + ps.length } := by
    intro ps
    induction ps with
    | nil => intro k; simp [chunkMsgs]
    | cons p rest ih =>
        intro k
        rw [chunkMsgs, List.map_cons, List.foldl_cons]
        rw [show recvStep { recvInit with droppedChunks := k }
            (RxEvent.data (Msg.chunk p.1 p.2)) =
          { recvInit with droppedChunks := k + 1 } from rfl]
        rw [← chunkMsgs, ih (k + 1)]
        rw [show k + 1 + rest.length = k + (rest.length + 1) by omega]
        rfl
  intro ps
  have h := gen ps 0
  rw [show ({ recvInit with droppedChunks := 0 } : RecvState) = recvInit from rfl] at h
  rw [h]
  rw [show (0 + ps.length) = ps.length by omega]

theorem recv_accum : ∀ (ps : List (Nat × List Nat)) (s : RecvState),
    s.metaSeen = true →
    s.receivedSize + ((ps.map (fun p => (Prod.snd p).length)).sum) < s.totalSize →
    List.foldl recvStep s (chunkMsgs ps) =
      { s with
          chunks := s.chunks ++ ps.map Prod.snd
          receivedSize := s.receivedSize + ((ps.map (fun p => (Prod.snd p).length)).sum) } := by
  intro ps
  induction ps with
  | nil =>
      intro s hm hlt
      simp [chunkMsgs]
  | cons p rest ih =>
      intro s hm hlt
      rw [List.map_cons, List.sum_cons] at hlt
      rw [chunkMsgs, List.map_cons, List.foldl_cons]
      have hstep : recvStep s (RxEvent.data (Msg.chunk p.1 p.2)) =
          { s with chunks := s.chunks ++ [p.2]
                   receivedSize := s.receivedSize + p.2.length } := by
        rw [recvStep]
        rw [if_neg (by rw [hm]; simp)]
        rw [if_neg (by omega)]
      rw [hstep, ← chunkMsgs]
      rw [ih _ (by rw [hm]) (by simp only []; omega)]
      simp only [List.map_cons, List.sum_cons, List.append_assoc,
        List.singleton_append]
      congr 1
      omega

theorem recv_complete : ∀ (ps : List (Nat × List Nat)) (s : RecvState),
    s.metaSeen = true →
    ps ≠ [] → (∀ p ∈ ps, Prod.snd p ≠ []) →
    s.receivedSize + ((ps.map (fun p => (Prod.snd p).length)).sum) = s.totalSize →
    List.foldl recvStep s (chunkMsgs ps) =
      { s with
          chunks := []
          receivedSize := s.totalSize
          receivedBlob := some ((s.chunks ++ ps.map Prod.snd).flatten)
          completions := s.completions + 1 } := by
  intro ps
  induction ps with
  | nil =>
      intro s hm hne
      exact absurd rfl hne
  | cons p rest ih =>
      intro s hm hne hdata hsum
      rw [List.map_cons, List.sum_cons] at hsum
      rw [chunkMsgs, List.map_cons, List.foldl_cons]
      cases rest with
      | nil =>
          have hstep : recvStep s (RxEvent.data (Msg.chunk p.1 p.2)) =
              { s with
                  chunks := []
                  receivedSize := s.receivedSize + p.2.length
                  receivedBlob := some ((s.chunks ++ [p.2]).flatten)
                  completions := s.completions + 1 } := by
            rw [recvStep]
            rw [if_neg (by rw [hm]; simp)]
            rw [if_pos (by simp at hsum; omega)]
          rw [hstep]
          rw [List.map_nil, List.foldl_nil]
          have hr : s.receivedSize + p.2.length = s.totalSize := by
            simp only [List.map_nil, List.sum_nil] at hsum
            omega
          rw [hr]
          simp only [List.map_cons, List.map_nil]
      | cons q qs =>
          have hqpos : 0 < ((List.map (fun p => (Prod.snd p).length) (q :: qs)).sum) := by
            have hq : Prod.snd q ≠ [] := hdata q (by simp)
            have : 0 < (Prod.snd q).length := List.length_pos.mpr hq
            simp only [List.map_cons, List.sum_cons]
            omega
          have hstep : recvStep s (RxEvent.data (Msg.chunk p.1 p.2)) =
              { s with chunks := s.chunks ++ [p.2]
                       receivedSize := s.receivedSize + p.2.length } := by
            rw [recvStep]
            rw [if_neg (by rw [hm]; simp)]
            rw [if_neg (by omega)]
          rw [hstep, ← chunkMsgs]
          rw [ih _ (by rw [hm]) (by simp) (fun x hx => hdata x (by simp [hx]))
            (by simp only []; omega)]
          simp only [List.map_cons, List.append_assoc, List.singleton_append]

theorem chunkList_take_sum (file : List Nat) :
    ∀ (k offset : Nat), offset + k * CHUNK_SIZE ≤ file.length →
      (((chunkList file offset).take k).map (fun p => (Prod.snd p).length)).sum =
        k * CHUNK_SIZE := by
  intro k
  induction k with
  | zero => intro offset h; simp
  | succ k ih =>
      intro offset h
      have hC : 0 < CHUNK_SIZE := by simp only [CHUNK_SIZE]; omega
      have hlt : offset < file.length := by
        have : CHUNK_SIZE ≤ (k + 1) * CHUNK_SIZE := by
          have := Nat.le_mul_of_pos_left CHUNK_SIZE (show 0 < k + 1 by omega)
          omega
        omega
      rw [chunkList, if_pos hlt, List.take_succ_cons, List.map_cons, List.sum_cons]
      have hslice : ((file.drop offset).take CHUNK_SIZE).length = CHUNK_SIZE := by
        rw [List.length_take, List.length_drop]
        have : (k + 1) * CHUNK_SIZE = k * CHUNK_SIZE + CHUNK_SIZE := by ring
        omega
      rw [show ((offset, (file.drop offset).take CHUNK_SIZE) : Nat × List Nat).2 =
        (file.drop offset).take CHUNK_SIZE from rfl, hslice]
      rw [ih (offset + CHUNK_SIZE) (by
        have : (k + 1) * CHUNK_SIZE = k * CHUNK_SIZE + CHUNK_SIZE := by ring
        omega)]
      ring

theorem chunkList_sum (file : List Nat) (offset : Nat) :
    ((chunkList file offset).map (fun p => (Prod.snd p).length)).sum =
      file.length - offset := by
  have := congrArg List.length (chunkList_join file offset)
  rw [List.length_flatten, List.map_map, List.length_drop] at this
  exact this

/-- The messages actually sent over the data channel (metadata and chunk
frames); progress callbacks and yields are local to the sender. -/
def wireOf (e : SendEvent) : Option Msg :=
  match e with
  | SendEvent.meta fn size ft tc ex => some (Msg.meta fn size ft tc ex)
  | SendEvent.chunk o d => some (Msg.chunk o d)
  | _ => none

def wireMsgs (evs : List SendEvent) : List Msg := evs.filterMap wireOf

theorem wireMsgs_sendLoop (file : List Nat) :
    ∀ offset chunkIndex, wireMsgs (sendLoop file offset chunkIndex) =
      (chunkList file offset).map (fun p => Msg.chunk p.1 p.2) := by
  intro offset chunkIndex
  induction offset, chunkIndex using sendLoop.induct file with
  | case1 offset chunkIndex hlt ih =>
      rw [sendLoop, if_pos hlt, chunkList, if_pos hlt, wireMsgs,
        List.filterMap_cons_some (rfl :
          wireOf (SendEvent.chunk offset ((file.drop offset).take CHUNK_SIZE)) = _),
        List.filterMap_cons_none (rfl :
          wireOf (SendEvent.progress (progressPercent (offset + CHUNK_SIZE) file.length)
            (offset + CHUNK_SIZE) file.length) = none),
        List.filterMap_append]
      rw [show List.filterMap wireOf
          (if (chunkIndex + 1) % 50 = 0 then [SendEvent.pause] else []) = [] by
        split_ifs <;> rfl]
      rw [List.nil_append, ← wireMsgs, ih, List.map_cons]
  | case2 offset chunkIndex hge =>
      rw [sendLoop, if_neg hge, chunkList, if_neg hge]
      rfl

theorem wireMsgs_sendFileTrace (file : List Nat) (filename fileType : List Char)
    (extra : List (List Char × List Char)) :
    (wireMsgs (sendFileTrace file filename fileType extra)).map RxEvent.data =
      RxEvent.data (Msg.meta filename file.length fileType
        (numChunks file.length) extra) :: chunkMsgs (chunkList file 0) := by
  rw [sendFileTrace, wireMsgs, List.filterMap_cons_some (rfl :
      wireOf (SendEvent.meta filename file.length fileType
        (numChunks file.length) extra) = _),
    ← wireMsgs, wireMsgs_sendLoop, List.map_cons, List.map_map]
  rfl

/-- Claim C7 (amended): on the receive side, every chunk frame arriving
before the metadata frame is counted as dropped and never appended to
the session buffer; once metadata has been received, chunks are appended
in arrival order; and — for every NONEMPTY file — completion is declared
exactly once, at the moment the accumulated size first reaches the
declared total (after any proper prefix of the chunks no completion has
been declared), at which point the finalized payload is the
concatenation of the received chunks in arrival order and the
intermediate buffers are discarded.  (For an empty file the beam
receiver never declares completion; see the counterexample.) -/
theorem recv_reassembly (file : List Nat) (filename fileType : List Char)
    (extra : List (List Char × List Char)) (pre : List (Nat × List Nat))
    (hfile : file ≠ []) :
    List.foldl recvStep recvInit (chunkMsgs pre) =
      { recvInit with droppedChunks := pre.length } ∧
    (let final := List.foldl recvStep recvInit (chunkMsgs pre ++
      (wireMsgs (sendFileTrace file filename fileType extra)).map RxEvent.data)
     final.completions = 1 ∧ final.receivedBlob = some file ∧ final.chunks = [] ∧
       final.receivedSize = file.length ∧ final.totalSize = file.length) ∧
    ∀ k, k < numChunks file.length →
      (let mid := List.foldl recvStep recvInit (chunkMsgs pre ++
        RxEvent.data (Msg.meta filename file.length fileType
          (numChunks file.length) extra) :: chunkMsgs ((chunkList file 0).take k))
       mid.completions = 0 ∧ mid.receivedBlob = none ∧
         mid.chunks = ((chunkList file 0).take k).map Prod.snd ∧
         mid.receivedSize = k * CHUNK_SIZE) := by
  have hpre := recv_drop_before_meta pre
  have hn0 : 0 < file.length := List.length_pos.mpr hfile
  have hmeta : recvStep { recvInit with droppedChunks := pre.length }
      (RxEvent.data (Msg.meta filename file.length fileType
        (numChunks file.length) extra)) =
      { chunks := [], receivedSize := 0, totalSize := file.length, metaSeen := true,
        receivedBlob := none, completions := 0, droppedChunks := pre.length,
        errorMsg := none } := rfl
  refine ⟨hpre, ?_, ?_⟩
  · rw [wireMsgs_sendFileTrace, List.foldl_append, hpre, List.foldl_cons, hmeta]
    have hne : chunkList file 0 ≠ [] := by
      intro h
      exact absurd hn0 ((chunkList_eq_nil_iff file 0).mp h)
    have hdata : ∀ p ∈ chunkList file 0, Prod.snd p ≠ [] :=
      fun p hp => (chunkList_data_le file 0 p hp).2
    rw [recv_complete (chunkList file 0) _ rfl hne hdata
      (by rw [chunkList_sum]; show (0 : Nat) + (file.length - 0) = file.length; omega)]
    refine ⟨rfl, ?_, rfl, rfl, rfl⟩
    show some ((([] : List (List Nat)) ++ (chunkList file 0).map Prod.snd).flatten) =
      some file
    rw [List.nil_append, chunkList_join, List.drop_zero]
  · intro k hk
    rw [List.foldl_append, hpre, List.foldl_cons, hmeta]
    have hsum : (0 : Nat) + k * CHUNK_SIZE < file.length := by
      have := (chunk_index_lt file.length k).mpr hk
      omega
    rw [recv_accum ((chunkList file 0).take k) _ rfl
      (by
        rw [chunkList_take_sum file k 0 (by omega)]
        show (0 : Nat) + k * CHUNK_SIZE < file.length
        omega)]
    refine ⟨rfl, rfl, ?_, ?_⟩
    · show (([] : List (List Nat)) ++ ((chunkList file 0).take k).map Prod.snd) =
        ((chunkList file 0).take k).map Prod.snd
      rw [List.nil_append]
    · show (0 : Nat) + (((chunkList file 0).take k).map
        (fun p => (Prod.snd p).length)).sum = k * CHUNK_SIZE
      rw [chunkList_take_sum file k 0 (by omega)]
      omega

/-- Claim C7, counterexample to the claim as stated: for an empty file
the sender sends only the metadata frame (declared total 0); the
accumulated received size (0) has reached the declared total from the
start, yet the receiver never declares completion and never produces a
payload, because the completion check only runs on chunk arrival. -/
theorem recv_empty_file_counterexample :
    (List.foldl recvStep recvInit
      ((wireMsgs (sendFileTrace [] [] [] [])).map RxEvent.data)).receivedSize ≥
      (List.foldl recvStep recvInit
        ((wireMsgs (sendFileTrace [] [] [] [])).map RxEvent.data)).totalSize ∧
    (List.foldl recvStep recvInit
      ((wireMsgs (sendFileTrace [] [] [] [])).map RxEvent.data)).completions = 0 ∧
    (List.foldl recvStep recvInit
      ((wireMsgs (sendFileTrace [] [] [] [])).map RxEvent.data)).receivedBlob = none := by
  have h0 : sendLoop ([] : List Nat) 0 0 = [] := by
    rw [sendLoop]
    simp
  rw [sendFileTrace, h0]
  refine ⟨?_, ?_, ?_⟩ <;> decide

theorem recv_reassembly_witness :
    (([5, 6] : List Nat) ≠ []) ∧
    (let final := List.foldl recvStep recvInit (chunkMsgs [(0, [9])] ++
      (wireMsgs (sendFileTrace [5, 6] [] [] [])).map RxEvent.data)
     final.completions = 1 ∧ final.receivedBlob = some [5, 6] ∧ final.chunks = [] ∧
       final.receivedSize = ([5, 6] : List Nat).length ∧
       final.totalSize = ([5, 6] : List Nat).length) :=
  ⟨by decide, (recv_reassembly [5, 6] [] [] [] [(0, [9])] (by decide)).2.1⟩

/-- Claim C8 (amended): if the channel closes before the accumulated
size reaches the declared total, the receive session reports the
connection-closed error of `P2P.connect` — a fixed message that carries
no byte counts — and never produces a payload or declares completion, so
a truncated transfer is never presented as a success. -/
theorem recv_close_aborts (file : List Nat) (filename fileType : List Char)
    (extra : List (List Char × List Char)) (k : Nat)
    (hfile : file ≠ []) (hk : k < numChunks file.length) :
    (let final := List.foldl recvStep recvInit
      ((RxEvent.data (Msg.meta filename file.length fileType
        (numChunks file.length) extra) ::
          chunkMsgs ((chunkList file 0).take k)) ++ [RxEvent.close])
     final.errorMsg = some closeErrMsg ∧ final.receivedBlob = none ∧
       final.completions = 0 ∧ final.receivedSize = k * CHUNK_SIZE ∧
       final.totalSize = file.length) := by
  have hmeta : recvStep recvInit
      (RxEvent.data (Msg.meta filename file.length fileType
        (numChunks file.length) extra)) =
      { chunks := [], receivedSize := 0, totalSize := file.length, metaSeen := true,
        receivedBlob := none, completions := 0, droppedChunks := 0,
        errorMsg := none } := rfl
  rw [List.cons_append, List.foldl_cons, hmeta, List.foldl_append]
  rw [recv_accum ((chunkList file 0).take k) _ rfl
    (by
      rw [chunkList_take_sum file k 0 (by
        have := (chunk_index_lt file.length k).mpr hk
        omega)]
      show (0 : Nat) + k * CHUNK_SIZE < file.length
      have := (chunk_index_lt file.length k).mpr hk
      omega)]
  refine ⟨rfl, rfl, rfl, ?_, rfl⟩
  show (0 : Nat) + (((chunkList file 0).take k).map
    (fun p => (Prod.snd p).length)).sum = k * CHUNK_SIZE
  rw [chunkList_take_sum file k 0 (by
    have := (chunk_index_lt file.length k).mpr hk
    omega)]
  omega

/-- Claim C8, counterexample to the claim as stated: the abort report is
the fixed string of `P2P.connect`'s close handler — two aborted sessions
that received different byte counts produce identical reports, so the
report includes neither bytes-received nor bytes-expected. -/
theorem recv_close_error_counterexample :
    (List.foldl recvStep recvInit
      [RxEvent.data (Msg.meta [] 4 [] 1 []), RxEvent.close]).errorMsg =
      (List.foldl recvStep recvInit
        [RxEvent.data (Msg.meta [] 4 [] 1 []),
         RxEvent.data (Msg.chunk 0 [1, 2]), RxEvent.close]).errorMsg ∧
    (List.foldl recvStep recvInit
      [RxEvent.data (Msg.meta [] 4 [] 1 []), RxEvent.close]).receivedSize = 0 ∧
    (List.foldl recvStep recvInit
      [RxEvent.data (Msg.meta [] 4 [] 1 []),
       RxEvent.data (Msg.chunk 0 [1, 2]), RxEvent.close]).receivedSize = 2 ∧
    (List.foldl recvStep recvInit
      [RxEvent.data (Msg.meta [] 4 [] 1 []), RxEvent.close]).errorMsg =
      some closeErrMsg := by
  refine ⟨?_, ?_, ?_, ?_⟩ <;> decide

theorem recv_close_aborts_witness :
    (([1, 2] : List Nat) ≠ []) ∧ (0 < numChunks ([1, 2] : List Nat).length) ∧
    (let final := List.foldl recvStep recvInit
      ((RxEvent.data (Msg.meta [] ([1, 2] : List Nat).length [] (numChunks ([1, 2] : List Nat).length) []) ::
          chunkMsgs ((chunkList [1, 2] 0).take 0)) ++ [RxEvent.close])
     final.errorMsg = some closeErrMsg ∧ final.receivedBlob = none ∧
       final.completions = 0 ∧ final.receivedSize = 0 * CHUNK_SIZE ∧
       final.totalSize = ([1, 2] : List Nat).length) :=
  ⟨by decide, by decide, recv_close_aborts [1, 2] [] [] [] 0 (by decide) (by decide)⟩

/-! ### AcousticModem: `AudioKey.transmit` / `AudioKey.textToBinary`
(audio.js lines 34-81) and `AudioKey.processLoop` (audio.js lines
116-151).  JavaScript strings index UTF-16 units; the model covers texts
of basic-multilingual-plane characters, for which `charCodeAt` returns
the code point. -/

def markFreq : Nat := 2000
def spaceFreq : Nat := 1200
def baudRate : Nat := 20

def bitDuration : ℚ := 1 / baudRate

def padStart (len : Nat) (c : Char) (s : List Char) : List Char :=
  List.replicate (len - s.length) c ++ s

def textToBinary (text : List Char) : List Char :=
  (text.map (fun ch => padStart 8 ('0') (Nat.toDigits 2 ch.toNat))).flatten

def frameBits (text : List Char) : List Char :=
  ("10101010").toList ++ textToBinary text ++ ("0000").toList

def toneFreq (b : Char) : Nat := if b = '1' then markFreq else spaceFreq

def toneSchedule (startTime : ℚ) (text : List Char) : List (Nat × ℚ) :=
  (spaceFreq, startTime) ::
    (List.range (frameBits text).length).map
      (fun i => (toneFreq ((frameBits text).getD i ('0')), startTime + i * bitDuration))

def byteBits (n : Nat) : List Char :=
  (List.range 8).map (fun k => if n / 2 ^ (7 - k) % 2 = 1 then '1' else '0')

set_option maxRecDepth 4000 in
theorem padStart_toDigits_eq_byteBits :
    ∀ n < 256, padStart 8 ('0') (Nat.toDigits 2 n) = byteBits n := by decide

theorem getD_map_range {α : Type} (f : Nat → α) (d : α) (m i : Nat) (h : i < m) :
    ((List.range m).map f).getD i d = f i := by
  rw [List.getD_eq_getElem?_getD, List.getElem?_map, List.getElem?_range h]
  rfl

/-- Claim C9 (amended): for every transmitted text whose characters all
have code below 256, `transmit` builds the bit sequence `10101010`
(preamble), then 8 bits per character most-significant-bit first, then
the trailer `0000`, and schedules one tone per bit — 2000 Hz for bit 1
and 1200 Hz for bit 0 — with bit duration 1/20 second (after an initial
level set to the space frequency at the start time).  Characters with
code 256 or above contribute more than 8 bits (see the counterexample),
which is the one amendment to the claim. -/
theorem modulate_spec (text : List Char) (startTime : ℚ)
    (h : ∀ c ∈ text, c.toNat < 256) :
    frameBits text = ("10101010").toList ++
      ((text.map (fun c => byteBits c.toNat)).flatten) ++ ("0000").toList ∧
    bitDuration = 1 / 20 ∧
    (toneSchedule startTime text).length = 1 + (frameBits text).length ∧
    (∀ i, i < (frameBits text).length →
      (toneSchedule startTime text).getD (i + 1) (0, 0) =
        ((if (frameBits text).getD i ('0') = '1' then 2000 else 1200),
          startTime + i * (1 / 20))) := by
  refine ⟨?_, rfl, ?_, ?_⟩
  · rw [frameBits, textToBinary]
    have : text.map (fun ch => padStart 8 ('0') (Nat.toDigits 2 ch.toNat)) =
        text.map (fun c => byteBits c.toNat) :=
      List.map_congr_left (fun c hc => padStart_toDigits_eq_byteBits c.toNat (h c hc))
    rw [this]
  · rw [toneSchedule, List.length_cons, List.length_map, List.length_range]
    omega
  · intro i hi
    rw [toneSchedule, List.getD_cons_succ, getD_map_range _ _ _ i hi]
    rfl

/-- Claim C9, counterexample to the claim as stated: the character
U+0100 has code 256, and `charCodeAt(0).toString(2)` yields nine binary
digits that `padStart(8, '0')` does not shorten, so its frame is not
preamble + 8 bits + trailer. -/
theorem modulate_claim_counterexample :
    frameBits [Char.ofNat 256] ≠ ("10101010").toList ++
      ((([Char.ofNat 256]).map (fun c => byteBits c.toNat)).flatten) ++
      ("0000").toList := by decide

theorem modulate_witness :
    (∀ c ∈ ("A").toList, c.toNat < 256) ∧
    frameBits (("A").toList) = ("10101010").toList ++
      (((("A").toList).map (fun c => byteBits c.toNat)).flatten) ++ ("0000").toList ∧
    frameBits (("A").toList) =
      ("10101010").toList ++ ("01000001").toList ++ ("0000").toList :=
  ⟨by decide, (modulate_spec (("A").toList) 0 (by decide)).1, by decide⟩

structure FrameResult where
  spectrumOut : Int → Nat
  bitOut : Option (Nat × Nat)

def bandEnergy (spectrum : Int → Nat) (bin : Int) : Nat :=
  (([-2, -1, 0, 1, 2] : List Int).map (fun i => spectrum (bin + i))).foldl max 0

def noiseGate : Nat := 50
def fftSize : Nat := 2048

def markBin (sampleRate : ℚ) : Int :=
  round ((markFreq : ℚ) / (sampleRate / fftSize))

def spaceBin (sampleRate : ℚ) : Int :=
  round ((spaceFreq : ℚ) / (sampleRate / fftSize))

def processFrame (sampleRate : ℚ) (spectrum : Int → Nat) : FrameResult :=
  { spectrumOut := spectrum
    bitOut :=
      if bandEnergy spectrum (markBin sampleRate) > noiseGate ∨
         bandEnergy spectrum (spaceBin sampleRate) > noiseGate then
        some (if bandEnergy spectrum (markBin sampleRate) >
                 bandEnergy spectrum (spaceBin sampleRate) then 1 else 0,
          max (bandEnergy spectrum (markBin sampleRate))
            (bandEnergy spectrum (spaceBin sampleRate)))
      else none }

/-- Claim C10: in every analysis frame, the spectrum callback receives
the raw spectrum regardless of any bit decision; a bit decision is
emitted iff the maximum energy over the five bins around the mark
frequency or around the space frequency exceeds the fixed noise floor
(50); the decided bit is 1 exactly when the mark-band energy strictly
exceeds the space-band energy (else 0) and the reported energy is the
larger band energy; and in particular a 44100 Hz frame with strong
energy at the mark bin and none elsewhere decides bit 1. -/
theorem demodulate_spec (sampleRate : ℚ) (spectrum : Int → Nat) :
    (processFrame sampleRate spectrum).spectrumOut = spectrum ∧
    ((processFrame sampleRate spectrum).bitOut ≠ none ↔
      bandEnergy spectrum (markBin sampleRate) > noiseGate ∨
      bandEnergy spectrum (spaceBin sampleRate) > noiseGate) ∧
    (∀ b e, (processFrame sampleRate spectrum).bitOut = some (b, e) →
      ((b = 1 ↔ bandEnergy spectrum (markBin sampleRate) >
        bandEnergy spectrum (spaceBin sampleRate)) ∧
       e = max (bandEnergy spectrum (markBin sampleRate))
         (bandEnergy spectrum (spaceBin sampleRate)))) ∧
    (processFrame 44100 (fun i => if i = markBin 44100 then 200 else 0)).bitOut =
      some (1, 200) := by
  have hm : markBin 44100 = 93 := by
    rw [markBin, round_eq, Int.floor_eq_iff]
    constructor
    · rw [markFreq, fftSize]
      norm_num
    · rw [markFreq, fftSize]
      norm_num
  have hs : spaceBin 44100 = 56 := by
    rw [spaceBin, round_eq, Int.floor_eq_iff]
    constructor
    · rw [spaceFreq, fftSize]
      norm_num
    · rw [spaceFreq, fftSize]
      norm_num
  refine ⟨rfl, ?_, ?_, by simp only [processFrame, bandEnergy, hm, hs]; decide⟩
  · rw [processFrame]
    by_cases hcond : bandEnergy spectrum (markBin sampleRate) > noiseGate ∨
        bandEnergy spectrum (spaceBin sampleRate) > noiseGate
    · rw [if_pos hcond]
      exact iff_of_true (by simp) hcond
    · rw [if_neg hcond]
      exact iff_of_false (by simp) hcond
  · intro b e hbe
    rw [processFrame] at hbe
    split_ifs at hbe with hcond hgt
    · simp only [Option.some.injEq, Prod.mk.injEq] at hbe
      obtain ⟨rfl, rfl⟩ := hbe
      exact ⟨by simp [hgt], rfl⟩
    · simp only [Option.some.injEq, Prod.mk.injEq] at hbe
      obtain ⟨rfl, rfl⟩ := hbe
      refine ⟨?_, rfl⟩
      constructor
      · intro h0
        cases h0
      · intro hc
        exact absurd hc hgt
